import Mathlib

/-!
Verification development for the HH.ru job-search agent (src/agent.py).

Strings are modelled as `List Char` (`Str`).  Python's Unicode-aware
primitives are modelled for the alphabets the program actually works with
(ASCII plus Cyrillic): `str.lower` lowercases ASCII letters and the
Cyrillic block, the regex class `\w` is ASCII alphanumerics, underscore
and Cyrillic letters, and `\d` is the ASCII digits.
-/

set_option maxRecDepth 40000

abbrev Str := List Char

/-- Python `\s` whitespace characters (the ASCII ones used by `re`). -/
def isSpaceChar (c : Char) : Bool :=
  c = ' ' || c = '\t' || c = '\n' || c = '\r' || c = '\x0b' || c = '\x0c'

/-- Regex word character `\w`: ASCII alphanumerics, underscore, and the
Cyrillic block U+0400..U+04FF (the letters the agent's inputs use). -/
def isWordChar (c : Char) : Bool :=
  c.isAlphanum || c = '_' || (0x400 ≤ c.toNat && c.toNat ≤ 0x4FF)

/-- `str.lower` restricted to ASCII and the Cyrillic block:
А..Я (U+0410..U+042F) shift by 0x20, Ё (U+0401) maps to ё (U+0451),
ASCII A..Z shift by 0x20, everything else unchanged. -/
def ruLower (c : Char) : Char :=
  if 0x410 ≤ c.toNat && c.toNat ≤ 0x42F then Char.ofNat (c.toNat + 0x20)
  else if c.toNat = 0x401 then Char.ofNat 0x451
  else if 65 ≤ c.toNat && c.toNat ≤ 90 then Char.ofNat (c.toNat + 32)
  else c

def lowerStr (s : Str) : Str := s.map ruLower

/-- One pass of `re.sub(r"\s+", " ", s)`: collapse every whitespace run to
a single space.  The flag records whether the previous character was
part of a whitespace run. -/
def collapseWS : Bool → Str → Str
  | _, [] => []
  | prevSpace, c :: rest =>
    if isSpaceChar c then
      if prevSpace then collapseWS true rest
      else ' ' :: collapseWS true rest
    else c :: collapseWS false rest

/-- `str.strip()` on the output of the collapse (only plain spaces remain). -/
def stripSpaces (s : Str) : Str :=
  ((s.dropWhile (fun c => c = ' ')).reverse.dropWhile (fun c => c = ' ')).reverse

/-- `norm_text` from src/agent.py: `re.sub(r"\s+", " ", s).strip()`. -/
def normText (s : Str) : Str := stripSpaces (collapseWS false s)

/-- Does `pat` occur at the head of `s`? -/
def beginsWith : Str → Str → Bool
  | _, [] => true
  | [], _ :: _ => false
  | c :: cs, p :: ps => c = p && beginsWith cs ps

/-- Python's `pat in s` substring test. -/
def containsSub : Str → Str → Bool
  | s, pat =>
    if beginsWith s pat then true
    else
      match s with
      | [] => false
      | _ :: rest => containsSub rest pat

def anySub (s : Str) (pats : List Str) : Bool := pats.any (fun p => containsSub s p)

def digitVal (c : Char) : Nat := c.toNat - 48

/-- Is the position before `l` (whose previous character is `prev`) a `\b`
word boundary, assuming the next character is a word character? -/
def boundaryBefore : Option Char → Bool
  | none => true
  | some p => !isWordChar p

/-- Is the position after a word character a `\b` boundary, looking at the
rest of the input? -/
def nextNotWord : Str → Bool
  | [] => true
  | c :: _ => !isWordChar c

/-- `_extract_int`: `re.search(r"\b(\d{1,2})\b", text)`, leftmost match,
greedy two digits then backtrack to one.  Scans positions left to right
carrying the previous character for the boundary test. -/
def extractIntAux : Option Char → Str → Option Nat
  | _, [] => none
  | prev, c :: rest =>
    if c.isDigit && boundaryBefore prev then
      match rest with
      | [] => some (digitVal c)
      | d :: rest2 =>
        if d.isDigit then
          -- try the greedy two-digit match; on failure the one-digit
          -- backtrack also fails (`d` is a word character), so move on
          if nextNotWord rest2 then some (10 * digitVal c + digitVal d)
          else extractIntAux (some c) rest
        else
          if !isWordChar d then some (digitVal c) else extractIntAux (some c) rest
    else extractIntAux (some c) rest

def extractInt (s : Str) : Option Nat := extractIntAux none s

/-- Tail of the experience-range pattern after its first digit:
`\s*[-–]\s*d2\b`. -/
def rangeTail (d2 : Char) (s : Str) : Bool :=
  match s.dropWhile isSpaceChar with
  | sep :: rest =>
    if sep = '-' || sep = '–' then
      match rest.dropWhile isSpaceChar with
      | c :: rest2 => c = d2 && nextNotWord rest2
      | [] => false
    else false
  | [] => false

/-- `re.search(r"\b d1 \s*[-–]\s* d2 \b", tl)` as a Boolean: does the
numeric experience range occur anywhere? -/
def matchRange (d1 d2 : Char) : Option Char → Str → Bool
  | _, [] => false
  | prev, c :: rest =>
    if boundaryBefore prev && c = d1 && rangeTail d2 rest then true
    else matchRange d1 d2 (some c) rest

/-- `\b6\+\b`: boundary, '6', '+', then a boundary after the non-word '+'
requires the NEXT character to be a word character. -/
def matchSixPlusAux : Option Char → Str → Bool
  | _, [] => false
  | prev, c :: rest =>
    (boundaryBefore prev && c = '6' &&
      (match rest with
       | p :: w :: _ => p = '+' && isWordChar w
       | _ => false)) ||
    matchSixPlusAux (some c) rest

/-- `\bболее\s*6\b`. -/
def matchBolee6Aux : Option Char → Str → Bool
  | _, [] => false
  | prev, c :: rest =>
    (boundaryBefore prev && beginsWith (c :: rest) (String.data "более") &&
      (match (List.drop 4 rest).dropWhile isSpaceChar with
       | x :: rest2 => x = '6' && nextNotWord rest2
       | [] => false)) ||
    matchBolee6Aux (some c) rest

def matchMoreThan6 (s : Str) : Bool := matchSixPlusAux none s || matchBolee6Aux none s

/-- Tail of salary pattern 1 after the digits: `\s*(?:к|k)\b`. -/
def kMarkTail (s : Str) : Bool :=
  match s.dropWhile isSpaceChar with
  | m :: rest => (m = 'к' || m = 'k') && nextNotWord rest
  | [] => false

/-- Salary pattern 1, `re.search(r"(?:от\s*)?(\d{2,3})\s*(?:к|k)\b", tl)`,
returning the captured number.  The optional `от\s*` prefix never changes
the captured group (it only extends a match's start over a literal `от`
immediately before the same digits), so the scan looks for the leftmost
2-3 digit run followed by the thousand marker; greedy three digits are
tried before two. -/
def salaryKAux : Str → Option Nat
  | [] => none
  | c :: rest =>
    if c.isDigit then
      match rest with
      | d2 :: rest2 =>
        if d2.isDigit then
          match rest2 with
          | d3 :: rest3 =>
            if d3.isDigit then
              if kMarkTail rest3 then
                some (100 * digitVal c + 10 * digitVal d2 + digitVal d3)
              -- two-digit backtrack fails: the next character d3 is a digit,
              -- not the к/k marker
              else salaryKAux rest
            else
              if kMarkTail (d3 :: rest3) then some (10 * digitVal c + digitVal d2)
              else salaryKAux rest
          | [] => salaryKAux rest
        else salaryKAux rest
      | [] => none
    else salaryKAux rest

/-- Salary pattern 2, `re.search(r"(?:от\s*)?(\d{5,6})\b", tl)`: leftmost
5-6 digit run with a boundary after; greedy six digits tried before five.
As with pattern 1 the optional `от` prefix cannot change the group. -/
def salaryPlainAux : Str → Option Nat
  | [] => none
  | c :: rest =>
    if c.isDigit then
      match rest with
      | d2 :: d3 :: d4 :: d5 :: rest5 =>
        if d2.isDigit && d3.isDigit && d4.isDigit && d5.isDigit then
          match rest5 with
          | d6 :: rest6 =>
            if d6.isDigit && nextNotWord rest6 then
              some (100000 * digitVal c + 10000 * digitVal d2 + 1000 * digitVal d3 +
                    100 * digitVal d4 + 10 * digitVal d5 + digitVal d6)
            else if !d6.isDigit then
              some (10000 * digitVal c + 1000 * digitVal d2 + 100 * digitVal d3 +
                    10 * digitVal d4 + digitVal d5)
            else salaryPlainAux rest
          | [] =>
            some (10000 * digitVal c + 1000 * digitVal d2 + 100 * digitVal d3 +
                  10 * digitVal d4 + digitVal d5)
        else salaryPlainAux rest
      | _ => salaryPlainAux rest
    else salaryPlainAux rest

/-- The filler alternatives of the final
`re.sub(r"\b(открой|открыть|hh|hh\.ru|хх|хх\.ру|найди|найти|покажи|ваканси[яи]|с фильтрами|по фильтрам)\b", " ", query, flags=re.I)`,
in the regex's alternation order (first match wins; the character class
`[яи]` is the two single-character alternatives). -/
def fillerAlts : List Str :=
  [ String.data "открой", String.data "открыть", String.data "hh",
    String.data "hh.ru", String.data "хх", String.data "хх.ру",
    String.data "найди", String.data "найти", String.data "покажи",
    String.data "вакансия", String.data "вакансии",
    String.data "с фильтрами", String.data "по фильтрам" ]

/-- Case-insensitive literal match (patterns are lowercase): returns the
last consumed text character and the remaining text. -/
def matchLitCI : Str → Str → Option (Char × Str)
  | [], _ => none
  | [p], c :: rest => if ruLower c = p then some (c, rest) else none
  | p :: ps, c :: rest => if ruLower c = p then matchLitCI ps rest else none
  | _ :: _, [] => none

/-- Try the alternatives in order at the current position; a successful
alternative must also satisfy the trailing `\b` (all alternatives end in
a word character, so the next text character must not be one). -/
def tryAlts : List Str → Str → Option (Char × Str)
  | [], _ => none
  | a :: alts, s =>
    match matchLitCI a s with
    | some (lc, rest) => if nextNotWord rest then some (lc, rest) else tryAlts alts s
    | none => tryAlts alts s

/-- One left-to-right pass of the filler `re.sub`, fuelled by the text
length (each step consumes at least one character, so the fuel is never
exhausted on real inputs).  `prev` is the previous ORIGINAL character:
`re.sub` computes boundaries on the original string and resumes scanning
right after each match. -/
def fillerSubFuel : Nat → Option Char → Str → Str
  | 0, _, s => s
  | _ + 1, _, [] => []
  | fuel + 1, prev, c :: rest =>
    if boundaryBefore prev then
      match tryAlts fillerAlts (c :: rest) with
      | some (lc, rest') => ' ' :: fillerSubFuel fuel (some lc) rest'
      | none => c :: fillerSubFuel fuel (some c) rest
    else c :: fillerSubFuel fuel (some c) rest

def fillerSub (s : Str) : Str := fillerSubFuel s.length none s

/-- Role/technology keyword pass building `role_bits` (each keyword is
appended at most once, so the `dict.fromkeys` dedup is the identity). -/
def roleBits (tl : Str) : List Str :=
  (if containsSub tl (String.data "python") || containsSub tl (String.data "питон")
   then [String.data "Python"] else []) ++
  (if containsSub tl (String.data "backend") || containsSub tl (String.data "бэкенд") ||
      containsSub tl (String.data "бекенд")
   then [String.data "backend"] else []) ++
  (if containsSub tl (String.data "django") then [String.data "Django"] else []) ++
  (if containsSub tl (String.data "fastapi") then [String.data "FastAPI"] else []) ++
  (if containsSub tl (String.data "asyncio") then [String.data "asyncio"] else [])

/-- `" ".join(bits)`. -/
def joinSpace : List Str → Str
  | [] => []
  | [x] => x
  | x :: xs => x ++ ' ' :: joinSpace xs

def defaultQuery : Str := String.data "Python разработчик"

structure AiResult where
  query : Str
  want_n : Option Nat
  area : Option Nat
  experience : Option Str
  remote : Bool
  salary : Option Nat
  only_with_salary : Bool
deriving Repr, DecidableEq

def expNoKws : List Str :=
  [ String.data "без опыта", String.data "стажер", String.data "стажёр",
    String.data "intern", String.data "junior", String.data "джун" ]

def expMidKws : List Str :=
  [ String.data "middle", String.data "мидл", String.data "мид" ]

def expSeniorKws : List Str :=
  [ String.data "senior", String.data "сеньор", String.data "синьор",
    String.data "lead", String.data "лид" ]

def salaryReqKws : List Str :=
  [ String.data "только с зп", String.data "только с зарплат",
    String.data "с зарплатой", String.data "only_with_salary" ]

def remoteKws : List Str :=
  [ String.data "удален", String.data "удалён", String.data "remote",
    String.data "из дома" ]

/-- `ai_interpret_user_goal` from src/agent.py. -/
def aiInterpret (userText : Str) : AiResult :=
  let t := normText userText
  let tl := lowerStr t
  let wantN := extractInt tl
  let area : Option Nat :=
    if containsSub tl (String.data "моск") then some 1
    else if containsSub tl (String.data "питер") || containsSub tl (String.data "спб") ||
            containsSub tl (String.data "санкт-петер") then some 2
    else if containsSub tl (String.data "росси") || containsSub tl (String.data "рф") then
      some 113
    else none
  let exp0 : Option Str :=
    if anySub tl expNoKws then some (String.data "noExperience")
    else if anySub tl expMidKws then some (String.data "between1And3")
    else if anySub tl expSeniorKws then some (String.data "between3And6")
    else none
  let exp1 := if matchRange '1' '3' none tl then some (String.data "between1And3") else exp0
  let exp2 := if matchRange '3' '6' none tl then some (String.data "between3And6") else exp1
  let exp3 := if matchMoreThan6 tl then some (String.data "moreThan6") else exp2
  let remote := anySub tl remoteKws
  let salary : Option Nat :=
    match salaryKAux tl with
    | some n => some (n * 1000)
    | none => salaryPlainAux tl
  let onlyWithSalary := salary.isSome && anySub tl salaryReqKws
  let query0 := if roleBits tl ≠ [] then joinSpace (roleBits tl) ++ String.data " разработчик" else t
  let query1 := normText (fillerSub query0)
  let query := if query1 = [] then defaultQuery else query1
  { query := query, want_n := wantN, area := area, experience := exp3,
    remote := remote, salary := salary, only_with_salary := onlyWithSalary }

/-!
URL machinery: models of the `urllib.parse` collaborators used by
`set_query_param` and `build_search_url` (quote_plus, unquote_plus,
parse_qsl, urlencode, urlsplit, urlunsplit).
-/

/-- UTF-8 encoding of a code point. -/
def utf8Bytes (v : Nat) : List Nat :=
  if v < 0x80 then [v]
  else if v < 0x800 then [0xC0 + v / 0x40, 0x80 + v % 0x40]
  else if v < 0x10000 then
    [0xE0 + v / 0x1000, 0x80 + (v / 0x40) % 0x40, 0x80 + v % 0x40]
  else
    [0xF0 + v / 0x40000, 0x80 + (v / 0x1000) % 0x40, 0x80 + (v / 0x40) % 0x40,
     0x80 + v % 0x40]

def isContByte (b : Nat) : Bool := 0x80 ≤ b && b < 0xC0

/-- U+FFFD, the replacement character Python's `errors="replace"` inserts
for undecodable bytes. -/
def replChar : Char := Char.ofNat 0xFFFD

/-- Continuation parsing for a 2-byte lead: the decoded code point and
the remaining bytes. -/
def utf8Cont2 (b : Nat) (rest : List Nat) : Option (Nat × List Nat) :=
  match rest with
  | b2 :: r => if isContByte b2 then some ((b - 0xC0) * 0x40 + (b2 - 0x80), r) else none
  | _ => none

/-- Continuation parsing for a 3-byte lead. -/
def utf8Cont3 (b : Nat) (rest : List Nat) : Option (Nat × List Nat) :=
  match rest with
  | b2 :: b3 :: r =>
    if isContByte b2 && isContByte b3 then
      some ((b - 0xE0) * 0x1000 + (b2 - 0x80) * 0x40 + (b3 - 0x80), r)
    else none
  | _ => none

/-- Continuation parsing for a 4-byte lead. -/
def utf8Cont4 (b : Nat) (rest : List Nat) : Option (Nat × List Nat) :=
  match rest with
  | b2 :: b3 :: b4 :: r =>
    if isContByte b2 && isContByte b3 && isContByte b4 then
      some ((b - 0xF0) * 0x40000 + (b2 - 0x80) * 0x1000 + (b3 - 0x80) * 0x40 + (b4 - 0x80), r)
    else none
  | _ => none

theorem utf8Cont2_length (b : Nat) (rest r : List Nat) (v : Nat)
    (h : utf8Cont2 b rest = some (v, r)) : r.length < rest.length := by
  unfold utf8Cont2 at h
  cases rest with
  | nil => simp at h
  | cons b2 r0 =>
    dsimp only at h
    by_cases hc : isContByte b2 = true
    · rw [if_pos hc] at h
      simp only [Option.some_inj, Prod.mk.injEq] at h
      rw [← h.2]
      simp
    · rw [if_neg hc] at h
      simp at h

theorem utf8Cont3_length (b : Nat) (rest r : List Nat) (v : Nat)
    (h : utf8Cont3 b rest = some (v, r)) : r.length < rest.length := by
  unfold utf8Cont3 at h
  cases rest with
  | nil => simp at h
  | cons b2 r0 =>
    cases r0 with
    | nil => simp at h
    | cons b3 r1 =>
      dsimp only at h
      by_cases hc : (isContByte b2 && isContByte b3) = true
      · rw [if_pos hc] at h
        simp only [Option.some_inj, Prod.mk.injEq] at h
        rw [← h.2]
        simp
        omega
      · rw [if_neg hc] at h
        simp at h

theorem utf8Cont4_length (b : Nat) (rest r : List Nat) (v : Nat)
    (h : utf8Cont4 b rest = some (v, r)) : r.length < rest.length := by
  unfold utf8Cont4 at h
  cases rest with
  | nil => simp at h
  | cons b2 r0 =>
    cases r0 with
    | nil => simp at h
    | cons b3 r1 =>
      cases r1 with
      | nil => simp at h
      | cons b4 r2 =>
        dsimp only at h
        by_cases hc : (isContByte b2 && isContByte b3 && isContByte b4) = true
        · rw [if_pos hc] at h
          simp only [Option.some_inj, Prod.mk.injEq] at h
          rw [← h.2]
          simp
          omega
        · rw [if_neg hc] at h
          simp at h

/-- UTF-8 decoding (only the behavior on valid encoder output matters for
the theorems below; malformed input degrades to replacement characters). -/
def utf8Decode : List Nat → List Char
  | [] => []
  | b :: rest =>
    if b < 0x80 then Char.ofNat b :: utf8Decode rest
    else if b < 0xC2 then replChar :: utf8Decode rest
    else if b < 0xE0 then
      match hcont : utf8Cont2 b rest with
      | some vr => Char.ofNat vr.1 :: utf8Decode vr.2
      | none => replChar :: utf8Decode rest
    else if b < 0xF0 then
      match hcont : utf8Cont3 b rest with
      | some vr => Char.ofNat vr.1 :: utf8Decode vr.2
      | none => replChar :: utf8Decode rest
    else if b < 0xF8 then
      match hcont : utf8Cont4 b rest with
      | some vr => Char.ofNat vr.1 :: utf8Decode vr.2
      | none => replChar :: utf8Decode rest
    else replChar :: utf8Decode rest
termination_by l => l.length
decreasing_by
  all_goals simp_wf
  all_goals first
  | omega
  | (rename_i hcont
     first
     | (have hlen := utf8Cont2_length _ _ _ _ hcont; omega)
     | (have hlen := utf8Cont3_length _ _ _ _ hcont; omega)
     | (have hlen := utf8Cont4_length _ _ _ _ hcont; omega))

/-- `quote`'s always-safe bytes: ASCII alphanumerics and `_.-~`. -/
def isSafeByte (b : Nat) : Bool :=
  (48 ≤ b && b ≤ 57) || (65 ≤ b && b ≤ 90) || (97 ≤ b && b ≤ 122) ||
  b = 95 || b = 45 || b = 46 || b = 126

def hexDigitU (n : Nat) : Char :=
  Char.ofNat (if n < 10 then 48 + n else 55 + n)

/-- `quote_plus` on one byte: safe bytes pass through, space becomes `+`,
everything else `%XX` with uppercase hex. -/
def quoteByte (b : Nat) : Str :=
  if isSafeByte b then [Char.ofNat b]
  else if b = 32 then ['+']
  else ['%', hexDigitU (b / 16), hexDigitU (b % 16)]

/-- `urllib.parse.quote_plus(s, safe='')`. -/
def quotePlus (s : Str) : Str :=
  s.flatMap (fun c => (utf8Bytes c.toNat).flatMap quoteByte)

def hexVal? (c : Char) : Option Nat :=
  if 48 ≤ c.toNat && c.toNat ≤ 57 then some (c.toNat - 48)
  else if 65 ≤ c.toNat && c.toNat ≤ 70 then some (c.toNat - 55)
  else if 97 ≤ c.toNat && c.toNat ≤ 102 then some (c.toNat - 87)
  else none

/-- A percent escape: two hex digits after a `%`. -/
def unquoteHex (rest : Str) : Option (Nat × Str) :=
  match rest with
  | h1 :: h2 :: rest2 =>
    match hexVal? h1, hexVal? h2 with
    | some a, some b => some (a * 16 + b, rest2)
    | _, _ => none
  | _ => none

theorem unquoteHex_length (rest r : Str) (v : Nat) (h : unquoteHex rest = some (v, r)) :
    r.length < rest.length := by
  unfold unquoteHex at h
  cases rest with
  | nil => simp at h
  | cons h1 r0 =>
    cases r0 with
    | nil => simp at h
    | cons h2 r1 =>
      dsimp only at h
      cases hv1 : hexVal? h1 with
      | none => rw [hv1] at h; simp at h
      | some a =>
        cases hv2 : hexVal? h2 with
        | none => rw [hv1, hv2] at h; simp at h
        | some b =>
          rw [hv1, hv2] at h
          simp only [Option.some_inj, Prod.mk.injEq] at h
          rw [← h.2]
          simp only [List.length_cons]
          omega

/-- First stage of `unquote_plus`: `+` becomes a raw space, `%XX` becomes
a byte, anything else stays a raw character (a `%` not followed by two
hex digits is literal). -/
def unquoteItems : Str → List (Sum Char Nat)
  | [] => []
  | c :: rest =>
    if c = '+' then Sum.inl ' ' :: unquoteItems rest
    else if c = '%' then
      match hhex : unquoteHex rest with
      | some br => Sum.inr br.1 :: unquoteItems br.2
      | none => Sum.inl '%' :: unquoteItems rest
    else Sum.inl c :: unquoteItems rest
termination_by l => l.length
decreasing_by
  all_goals simp_wf
  all_goals first
  | omega
  | (rename_i hhex
     have := unquoteHex_length _ _ _ hhex
     omega)

/-- Second stage: maximal byte runs are UTF-8 decoded, raw characters pass
through.  `acc` holds the current byte run, reversed. -/
def groupDecode (acc : List Nat) : List (Sum Char Nat) → Str
  | [] => utf8Decode acc.reverse
  | Sum.inl c :: rest => utf8Decode acc.reverse ++ c :: groupDecode [] rest
  | Sum.inr b :: rest => groupDecode (b :: acc) rest

/-- `urllib.parse.unquote_plus`. -/
def unquotePlus (s : Str) : Str := groupDecode [] (unquoteItems s)

/-- Split at every occurrence of `sep` (Python's `str.split(sep)`): always
returns at least one (possibly empty) field. -/
def splitOnChar (sep : Char) : Str → List Str
  | [] => [[]]
  | c :: rest =>
    if c = sep then [] :: splitOnChar sep rest
    else
      match splitOnChar sep rest with
      | f :: fs => (c :: f) :: fs
      | [] => [[c]]

/-- Split at the FIRST occurrence of `sep`, removing it
(Python's `s.split(sep, 1)` when it finds a separator). -/
def splitFirst? (sep : Char) : Str → Option (Str × Str)
  | [] => none
  | c :: rest =>
    if c = sep then some ([], rest)
    else
      match splitFirst? sep rest with
      | some (a, b) => some (c :: a, b)
      | none => none

/-- `urllib.parse.parse_qsl(qs, keep_blank_values=True)`: split on `&`,
drop empty fields, split each field at the first `=` (a field without `=`
keeps a blank value), percent-decode names and values. -/
def parseQsl (q : Str) : List (Str × Str) :=
  (splitOnChar '&' q).filterMap fun field =>
    if field = [] then none
    else
      match splitFirst? '=' field with
      | some (n, v) => some (unquotePlus n, unquotePlus v)
      | none => some (unquotePlus field, [])

/-- `"&".join(fields)`. -/
def joinAmp : List Str → Str
  | [] => []
  | [f] => f
  | f :: fs => f ++ '&' :: joinAmp fs

/-- `urllib.parse.urlencode(d, doseq=True)` on string-valued pairs:
`quote_plus(k)=quote_plus(v)` joined with `&`. -/
def urlencodePairs (d : List (Str × Str)) : Str :=
  joinAmp (d.map fun kv => quotePlus kv.1 ++ '=' :: quotePlus kv.2)

/-- `d[k] = v` on a Python dict modelled as a key-ordered association
list: overwrite in place if the key is present, else append. -/
def dictInsert (d : List (Str × Str)) (k v : Str) : List (Str × Str) :=
  if d.any (fun kv => kv.1 = k) then
    d.map (fun kv => if kv.1 = k then (kv.1, v) else kv)
  else d ++ [(k, v)]

/-- `dict(pairs)`: first-occurrence key order, last value wins. -/
def dictOfPairs (ps : List (Str × Str)) : List (Str × Str) :=
  ps.foldl (fun acc kv => dictInsert acc kv.1 kv.2) []

structure UrlParts where
  scheme : Str
  netloc : Str
  path : Str
  query : Str
  fragment : Str
deriving Repr, DecidableEq

/-- WHATWG-unsafe characters removed by `urlsplit` before parsing. -/
def isUnsafeUrlChar (c : Char) : Bool := c = '\t' || c = '\r' || c = '\n'

def schemeChars : List Char :=
  String.data "abcdefghijklmnopqrstuvwxyzABCDEFGHIJKLMNOPQRSTUVWXYZ0123456789+-."

/-- A valid scheme candidate: nonempty, leading ASCII letter, all
characters from the scheme alphabet. -/
def validSchemeCand (s : Str) : Bool :=
  match s with
  | [] => false
  | c :: _ => c.isAlpha && s.all (fun x => schemeChars.contains x)

def isNetlocDelim (c : Char) : Bool := c = '/' || c = '?' || c = '#'

/-- The scheme step of `urlsplit`: split at the first `:` when the
candidate before it is a valid scheme, lowercasing it. -/
def splitScheme (s : Str) : Str × Str :=
  match splitFirst? ':' s with
  | some (cand, rest) =>
    if validSchemeCand cand then (lowerStr cand, rest) else ([], s)
  | none => ([], s)

/-- The netloc step of `urlsplit`: when the string starts with `//`, the
netloc runs up to the next `/`, `?` or `#` (CPython's
`if url[:2] == "//": _splitnetloc(url, 2)`). -/
def splitNetloc (s : Str) : Str × Str :=
  if s.take 2 = ['/', '/'] then
    ((s.drop 2).takeWhile (fun c => !isNetlocDelim c),
     (s.drop 2).dropWhile (fun c => !isNetlocDelim c))
  else ([], s)

/-- Split off the fragment at the first `#`, if any. -/
def splitHash (s : Str) : Str × Str :=
  match splitFirst? '#' s with
  | some (a, b) => (a, b)
  | none => (s, [])

/-- Split off the query at the first `?`, if any. -/
def splitQuery (s : Str) : Str × Str :=
  match splitFirst? '?' s with
  | some (a, b) => (a, b)
  | none => (s, [])

/-- `urllib.parse.urlsplit` (Python 3.11): the url is first left-stripped
of WHATWG C0-control-or-space characters, then tab/CR/LF are removed
everywhere.  The IPv6-bracket and netloc validation that can raise for
exotic hosts is outside this model. -/
def urlsplitM (u : Str) : UrlParts :=
  let s0 := (u.dropWhile (fun c => c.toNat ≤ 0x20)).filter (fun c => !isUnsafeUrlChar c)
  let (scheme, s1) := splitScheme s0
  let (netloc, s2) := splitNetloc s1
  let (s3, fragment) := splitHash s2
  let (path, query) := splitQuery s3
  { scheme := scheme, netloc := netloc, path := path, query := query, fragment := fragment }

/-- Schemes for which `urlunsplit` inserts the `//` netloc marker. -/
def usesNetloc : List Str :=
  [ String.data "", String.data "ftp", String.data "http", String.data "gopher",
    String.data "nntp", String.data "telnet", String.data "imap", String.data "wais",
    String.data "file", String.data "mms", String.data "https", String.data "shttp",
    String.data "snews", String.data "prospero", String.data "rtsp", String.data "rtsps",
    String.data "rtspu", String.data "rsync", String.data "svn", String.data "svn+ssh",
    String.data "sftp", String.data "nfs", String.data "git", String.data "git+ssh",
    String.data "ws", String.data "wss" ]

/-- `urllib.parse.urlunsplit` (Python 3.11). -/
def urlunsplitM (p : UrlParts) : Str :=
  let url :=
    if p.netloc ≠ [] ||
       (p.scheme ≠ [] && usesNetloc.contains p.scheme && p.path.take 2 ≠ ['/', '/']) then
      '/' :: '/' :: p.netloc ++
        (if p.path ≠ [] && p.path.take 1 ≠ ['/'] then '/' :: p.path else p.path)
    else p.path
  let url := if p.scheme ≠ [] then p.scheme ++ ':' :: url else url
  let url := if p.query ≠ [] then url ++ '?' :: p.query else url
  if p.fragment ≠ [] then url ++ '#' :: p.fragment else url

/-- `set_query_param` from src/agent.py. -/
def setQueryParam (u k v : Str) : Str :=
  let parts := urlsplitM u
  let q := dictOfPairs (parseQsl parts.query)
  let q2 := dictInsert q k v
  urlunsplitM { parts with query := urlencodePairs q2 }

def ITEMS_ON_PAGE : Nat := 20
def MAX_LINKS_SCAN : Nat := 260

/-- Digits of a natural number, `str(n)`. -/
def natStr (n : Nat) : Str := (Nat.toDigits 10 n)

/-- `build_search_url` from src/agent.py. -/
def buildSearchUrl (query : Str) (page : Nat) (area : Option Nat)
    (experience : Option Str) (remote : Bool) (salary : Option Nat)
    (onlyWithSalary : Bool) : Str :=
  let base := String.data "https://hh.ru/search/vacancy?text=" ++ quotePlus query ++
    String.data "&items_on_page=" ++ natStr ITEMS_ON_PAGE ++ String.data "&no_magic=true"
  let base := match area with
    | some a => setQueryParam base (String.data "area") (natStr a)
    | none => base
  let base := match experience with
    | some e => if e ≠ [] then setQueryParam base (String.data "experience") e else base
    | none => base
  let base := if remote then setQueryParam base (String.data "schedule") (String.data "remote")
    else base
  let base := match salary with
    | some s => setQueryParam base (String.data "salary") (natStr s)
    | none => base
  let base := if onlyWithSalary then
      setQueryParam base (String.data "only_with_salary") (String.data "true")
    else base
  setQueryParam base (String.data "page") (natStr page)

/-!
Listing collector, session launcher, application submitter.
-/

structure Vacancy where
  title : Str
  url : Str
  snippet : Str
deriving Repr, DecidableEq

/-- A listing anchor as the collector sees it: `href` is the result of
`get_attribute("href")` (`none` models both a missing attribute and a
raised lookup error, which the per-anchor handler turns into a skip via
`href or ""`), `text` is `inner_text` (`none` models a raised timeout,
skipped by the per-anchor handler), `card` is the ancestor container's
text (`none` models the swallowed snippet failure). -/
structure AnchorModel where
  href : Option Str
  text : Option Str
  card : Option Str
deriving Repr, DecidableEq

def vacMarker : Str := String.data "/vacancy/"

def hhOrigin : Str := String.data "https://hh.ru"

/-- Not the query delimiter. -/
def notQMark (c : Char) : Bool := c ≠ '?'

/-- The canonical url of a raw href: absolutize a relative href
(`href.startswith("/")`), then strip everything from the first `?`
(`href.split("?")[0]`). -/
def canonicalUrl (href : Str) : Str :=
  let abs := if href.take 1 = ['/'] then hhOrigin ++ href else href
  abs.takeWhile notQMark

/-- The loop body of `collect_vacancies_from_search`: `seen` is the dedup
set, `cnt` the number of records collected so far. -/
def collectAux : List Str → Nat → List AnchorModel → List Vacancy
  | _, _, [] => []
  | seen, cnt, a :: rest =>
    let href0 := a.href.getD []
    if !containsSub href0 vacMarker then collectAux seen cnt rest
    else
      let canon := canonicalUrl href0
      if seen.contains canon then collectAux seen cnt rest
      else
        let seen' := canon :: seen
        match a.text with
        | none => collectAux seen' cnt rest
        | some tx =>
          let title := normText tx
          if title = [] then collectAux seen' cnt rest
          else
            let snippet := match a.card with
              | some s => (normText s).take 450
              | none => []
            let v : Vacancy := { title := title, url := canon, snippet := snippet }
            if cnt + 1 ≥ ITEMS_ON_PAGE then [v]
            else v :: collectAux seen' (cnt + 1) rest

/-- `collect_vacancies_from_search`: the page is modelled by the list of
anchors matching `a[href*='/vacancy/']`; at most `MAX_LINKS_SCAN` are
scanned (if the selector never appears the function returns empty, which
coincides with the empty-anchor-list run). -/
def collectVacancies (anchors : List AnchorModel) : List Vacancy :=
  collectAux [] 0 (anchors.take MAX_LINKS_SCAN)

/-- The canonical urls of the qualifying anchors in page order, first
occurrence only — the reference order for the collector's output. -/
def candKeys : List Str → List AnchorModel → List Str
  | _, [] => []
  | seen, a :: rest =>
    let href0 := a.href.getD []
    if !containsSub href0 vacMarker then candKeys seen rest
    else
      let canon := canonicalUrl href0
      if seen.contains canon then candKeys seen rest
      else canon :: candKeys (canon :: seen) rest

/-- One launch attempt configuration from `launch_context_robust`:
`(name, profile_dir, use_yandex, fresh)`. -/
structure LaunchAttempt where
  label : Str
  profileDir : Str
  useYandex : Bool
  fresh : Bool
deriving Repr, DecidableEq

/-- Attempt 1: Playwright Chromium with the persistent main profile. -/
def attemptMain : LaunchAttempt :=
  { label := String.data "Chromium main profile",
    profileDir := String.data "./browser_profile_pw", useYandex := false, fresh := false }

/-- Attempt 2: Playwright Chromium with a wiped fallback profile. -/
def attemptFresh : LaunchAttempt :=
  { label := String.data "Chromium fresh fallback",
    profileDir := String.data "./browser_profile_pw_fallback", useYandex := false,
    fresh := true }

/-- Attempt 3: the Yandex browser binary (when installed) with a wiped
fallback profile. -/
def attemptYandex : LaunchAttempt :=
  { label := String.data "Yandex fresh fallback",
    profileDir := String.data "./browser_profile_pw_fallback", useYandex := true,
    fresh := true }

/-- The fixed ordered attempt list (profile paths as in the source,
without the `os.path.abspath` expansion). -/
def launchAttempts : List LaunchAttempt := [attemptMain, attemptFresh, attemptYandex]

/-- The launch loop: `f` models `_launch_once` (together with the profile
directory preparation) for one attempt; `last` is `last_exc`.  The final
`RuntimeError` carries the last underlying error, `none` standing for the
unreachable no-attempts case. -/
def launchRobustAux (f : LaunchAttempt → Except E Ctx) :
    List LaunchAttempt → Option E → Except (Option E) Ctx
  | [], last => Except.error last
  | a :: rest, last =>
    match f a with
    | Except.ok c => Except.ok c
    | Except.error e =>
      let _ := last
      launchRobustAux f rest (some e)

/-- `launch_context_robust`. -/
def launchContextRobust (f : LaunchAttempt → Except E Ctx) : Except (Option E) Ctx :=
  launchRobustAux f launchAttempts none

/-- `safe_click`: try each selector in order, first success wins; `f`
models whether clicking a given selector succeeds. -/
def safeClick (f : Str → Bool) (selectors : List Str) : Bool :=
  selectors.any f

/-- `safe_fill`: same ordered-fallback shape as `safe_click`. -/
def safeFill (f : Str → Bool) (selectors : List Str) : Bool :=
  selectors.any f

def respondSelectors : List Str :=
  [ String.data "text=Откликнуться",
    String.data "button:has-text(Откликнуться)",
    String.data "[data-qa*=vacancy-response]" ]

def letterSelectors : List Str :=
  [ String.data "[data-qa*=vacancy-response-letter] textarea",
    String.data "[data-qa*=cover-letter] textarea",
    String.data "textarea" ]

def sendSelectors : List Str :=
  [ String.data "button:has-text(Отправить)",
    String.data "text=Отправить" ]

/-- `respond_to_vacancy`: `clickF` and `sendF` model the per-selector
click outcomes, `fillF` the per-selector fill outcomes, `editableOk` the
`[contenteditable='true']` fallback fill. -/
def respondToVacancy (clickF fillF sendF : Str → Bool) (editableOk : Bool)
    (submit : Bool) : Bool :=
  let clicked := safeClick clickF respondSelectors
  if !clicked then false
  else
    let filled := safeFill fillF letterSelectors
    let filled := filled || editableOk
    if !filled then true
    else if !submit then true
    else safeClick sendF sendSelectors

/-- Characters that interfere with url component parsing: the query and
fragment delimiters and the unsafe bytes `urlsplit` removes. -/
def cleanChar (c : Char) : Prop :=
  c ≠ '?' ∧ c ≠ '#' ∧ c ≠ '\t' ∧ c ≠ '\r' ∧ c ≠ '\n'

def clean (s : Str) : Prop := ∀ c ∈ s, cleanChar c

/-- The head (if any) is not a WHATWG C0-control-or-space character. -/
def headGT32 (s : Str) : Prop := ∀ c, s.head? = some c → 0x20 < c.toNat

/-- Invariant of `urlsplit` results that makes re-splitting after a query
replacement recover the new query. -/
def UrlInv (p : UrlParts) : Prop :=
  clean p.scheme ∧ clean p.path ∧
  (∀ c ∈ p.netloc, isNetlocDelim c = false ∧ isUnsafeUrlChar c = false) ∧
  (∀ c ∈ p.fragment, isUnsafeUrlChar c = false) ∧
  (∀ c ∈ p.scheme, 0x20 < c.toNat) ∧
  (p.scheme = [] ∨ (validSchemeCand p.scheme = true ∧ lowerStr p.scheme = p.scheme)) ∧
  (p.scheme = [] → p.netloc = [] → headGT32 p.path) ∧
  (p.scheme = [] → p.netloc = [] →
    ∀ a b, p.path = a ++ ':' :: b → ':' ∉ a → validSchemeCand a = false)

/-- The item a single encoded byte decodes to in `unquote_plus`. -/
def itemOfByte (b : Nat) : List (Sum Char Nat) :=
  if isSafeByte b then [Sum.inl (Char.ofNat b)]
  else if b = 32 then [Sum.inl ' ']
  else [Sum.inr b]

/-- The UTF-8 byte stream of a character sequence. -/
def encRun (cs : List Char) : List Nat := cs.flatMap (fun c => utf8Bytes c.toNat)

/-!
Claim theorems.
-/

/-- Claim C1: session acquisition tries the fixed ordered attempt list
strictly in order, returns the session of the first attempt that succeeds
without consulting later attempts, and fails carrying the LAST underlying
attempt error exactly when every attempt fails. -/
theorem launch_robust_first_success_last_error {E Ctx : Type}
    (f : LaunchAttempt → Except E Ctx) :
    (∀ c, f attemptMain = Except.ok c → launchContextRobust f = Except.ok c) ∧
    (∀ e1 c, f attemptMain = Except.error e1 → f attemptFresh = Except.ok c →
      launchContextRobust f = Except.ok c) ∧
    (∀ e1 e2 c, f attemptMain = Except.error e1 → f attemptFresh = Except.error e2 →
      f attemptYandex = Except.ok c → launchContextRobust f = Except.ok c) ∧
    (∀ e1 e2 e3, f attemptMain = Except.error e1 → f attemptFresh = Except.error e2 →
      f attemptYandex = Except.error e3 →
      launchContextRobust f = Except.error (some e3)) ∧
    (∀ eo, launchContextRobust f = Except.error eo →
      ∃ e1 e2 e3, f attemptMain = Except.error e1 ∧ f attemptFresh = Except.error e2 ∧
        f attemptYandex = Except.error e3 ∧ eo = some e3) := by
  refine ⟨?_, ?_, ?_, ?_, ?_⟩
  · intro c h1
    simp [launchContextRobust, launchAttempts, launchRobustAux, h1]
  · intro e1 c h1 h2
    simp [launchContextRobust, launchAttempts, launchRobustAux, h1, h2]
  · intro e1 e2 c h1 h2 h3
    simp [launchContextRobust, launchAttempts, launchRobustAux, h1, h2, h3]
  · intro e1 e2 e3 h1 h2 h3
    simp [launchContextRobust, launchAttempts, launchRobustAux, h1, h2, h3]
  · intro eo h
    cases h1 : f attemptMain with
    | ok c => simp [launchContextRobust, launchAttempts, launchRobustAux, h1] at h
    | error e1 =>
      cases h2 : f attemptFresh with
      | ok c => simp [launchContextRobust, launchAttempts, launchRobustAux, h1, h2] at h
      | error e2 =>
        cases h3 : f attemptYandex with
        | ok c => simp [launchContextRobust, launchAttempts, launchRobustAux, h1, h2, h3] at h
        | error e3 =>
          refine ⟨e1, e2, e3, rfl, rfl, rfl, ?_⟩
          simp [launchContextRobust, launchAttempts, launchRobustAux, h1, h2, h3] at h
          exact h.symm

/-- Witness for C1: with the two Chromium attempts failing and the Yandex
attempt succeeding, the robust launcher returns the Yandex context. -/
theorem launch_robust_witness :
    launchContextRobust
      (fun a => if a.useYandex then (Except.ok 7 : Except Unit Nat) else Except.error ()) =
      Except.ok 7 :=
  (launch_robust_first_success_last_error
    (fun a => if a.useYandex then (Except.ok 7 : Except Unit Nat) else Except.error ())).2.2.1
    () () 7 rfl rfl rfl

/-- Claim C2: for every input the interpreter's query text is non-empty
(keyword hits with the role suffix, else the stripped input, else the
fixed default query). -/
theorem interpret_query_nonempty (s : Str) : (aiInterpret s).query ≠ [] := by
  have key : ∀ q : Str, (if q = [] then defaultQuery else q) ≠ [] := by
    intro q
    split
    · decide
    · assumption
  unfold aiInterpret
  dsimp only
  exact key _

/-- Claim C6: the scenario input resolves to the claimed structured
search specification. -/
theorem interpret_scenario_spb :
    aiInterpret (String.data "найди 5 вакансий Django в СПб, junior, удалёнка") =
      { query := String.data "Django разработчик", want_n := some 5, area := some 2,
        experience := some (String.data "noExperience"), remote := true,
        salary := none, only_with_salary := false } := by
  decide

/-- Claim C9: if the respond control was activated but every letter-fill
strategy including the editable-content fallback failed, `apply` reports
success (page left open); a `false` result entails that the respond
control failed or that submission was requested and no confirmation
control was found. -/
theorem respond_open_page_policy (clickF fillF sendF : Str → Bool)
    (editableOk submit : Bool) :
    (safeClick clickF respondSelectors = true → safeFill fillF letterSelectors = false →
      editableOk = false → respondToVacancy clickF fillF sendF editableOk submit = true) ∧
    (respondToVacancy clickF fillF sendF editableOk submit = false →
      safeClick clickF respondSelectors = false ∨
        (submit = true ∧ safeClick sendF sendSelectors = false)) := by
  constructor
  · intro h1 h2 h3
    simp [respondToVacancy, h1, h2, h3]
  · intro h
    by_cases h1 : safeClick clickF respondSelectors
    · right
      by_cases h2 : safeFill fillF letterSelectors <;>
        by_cases h3 : editableOk = true <;>
          by_cases h4 : submit = true <;>
            simp_all [respondToVacancy]
    · left
      simpa using h1

/-- Witness for C9: respond click succeeded, every fill failed, submit
requested — the call still returns `true`. -/
theorem respond_open_page_witness :
    respondToVacancy (fun _ => true) (fun _ => false) (fun _ => false) false true = true :=
  (respond_open_page_policy (fun _ => true) (fun _ => false) (fun _ => false) false true).1
    rfl rfl rfl

/-- Claim C5: `only_with_salary` can be true only when a salary floor was
resolved AND a salary-required synonym occurs; in particular the synonym
alone ("только с зарплатой") yields `false`. -/
theorem requireSalary_needs_floor :
    (∀ s : Str, (aiInterpret s).only_with_salary = true →
      (aiInterpret s).salary ≠ none ∧ anySub (lowerStr (normText s)) salaryReqKws = true) ∧
    (aiInterpret (String.data "только с зарплатой")).only_with_salary = false := by
  constructor
  · intro s h
    unfold aiInterpret at h ⊢
    dsimp only at h ⊢
    rw [Bool.and_eq_true] at h
    exact ⟨Option.ne_none_iff_isSome.mpr h.1, h.2⟩
  · decide

/-- Witness for C5: a salary floor plus the synonym flips the flag, and
the theorem's consequences hold there. -/
theorem requireSalary_needs_floor_witness :
    (aiInterpret (String.data "от 200к только с зарплатой")).salary ≠ none ∧
      anySub (lowerStr (normText (String.data "от 200к только с зарплатой")))
        salaryReqKws = true :=
  requireSalary_needs_floor.1 (String.data "от 200к только с зарплатой") (by decide)

/-- Counterexample for C3 as frozen: the input contains the range token
"1-3", yet the later-checked "3-6" range overrides it, so the resolved
band is not the mid band. -/
theorem range13_conflict_counterexample :
    matchRange '1' '3' none (lowerStr (normText (String.data "опыт 1-3, либо 3-6"))) = true ∧
    (aiInterpret (String.data "опыт 1-3, либо 3-6")).experience ≠
      some (String.data "between1And3") := by
  decide

/-- Claim C3 (amended): an input containing the numeric range "1-3"
resolves to the mid band regardless of any experience keyword, PROVIDED
none of the later-checked numeric patterns ("3-6", "6+", "более 6") also
match; those are assigned afterwards and override. -/
theorem range13_wins_unless_later_range (s : Str)
    (h13 : matchRange '1' '3' none (lowerStr (normText s)) = true)
    (h36 : matchRange '3' '6' none (lowerStr (normText s)) = false)
    (h6p : matchMoreThan6 (lowerStr (normText s)) = false) :
    (aiInterpret s).experience = some (String.data "between1And3") := by
  unfold aiInterpret
  dsimp only
  simp [h13, h36, h6p]

/-- Witness for the amended C3: "опыт 1-3" with a conflicting keyword
still resolves to the mid band. -/
theorem range13_wins_witness :
    (aiInterpret (String.data "senior, опыт 1-3")).experience =
      some (String.data "between1And3") :=
  range13_wins_unless_later_range (String.data "senior, опыт 1-3")
    (by decide) (by decide) (by decide)

/-- A scan prefix with no ASCII digit cannot start a salary-marker match. -/
theorem salaryKAux_append_nondigit (a rest : Str)
    (ha : ∀ c ∈ a, c.isDigit = false) :
    salaryKAux (a ++ rest) = salaryKAux rest := by
  induction a with
  | nil => rfl
  | cons c as ih =>
    have hc : c.isDigit = false := ha c (by simp)
    have ih' := ih (fun x hx => ha x (by simp [hx]))
    rw [List.cons_append]
    rw [salaryKAux.eq_def]
    simp [hc, ih']

/-- Evaluating the salary scan at a literal "200к" token. -/
theorem salaryKAux_200k (b : Str) (hb : nextNotWord b = true) :
    salaryKAux (String.data "200к" ++ b) = some 200 := by
  show salaryKAux ('2' :: '0' :: '0' :: 'к' :: b) = some 200
  have hdrop : List.dropWhile isSpaceChar ('к' :: b) = 'к' :: b := by
    rw [List.dropWhile_cons]
    simp [isSpaceChar]
  have hkt : kMarkTail ('к' :: b) = true := by
    rw [kMarkTail, hdrop]
    simp [hb]
  rw [salaryKAux.eq_def]
  simp [hkt, digitVal]

/-- Counterexample for C4 as frozen: this input contains "200к", but an
earlier thousand-marker match ("150к") wins, so the salary floor is not
200000. -/
theorem salary200k_counterexample :
    containsSub (lowerStr (normText (String.data "от 150к или 200к")))
      (String.data "200к") = true ∧
    (aiInterpret (String.data "от 150к или 200к")).salary ≠ some 200000 := by
  decide

/-- Claim C4 (amended): on an input containing "200к" where no digit
occurs before the token and the token is not followed by a word
character, the salary floor resolves to 200000 — the 2-3 digit number
before the thousand marker times 1000 (the leftmost such match wins). -/
theorem salary200k_resolves (s a b : Str)
    (hdec : lowerStr (normText s) = a ++ (String.data "200к" ++ b))
    (ha : ∀ c ∈ a, c.isDigit = false)
    (hb : nextNotWord b = true) :
    (aiInterpret s).salary = some 200000 := by
  unfold aiInterpret
  dsimp only
  rw [hdec, salaryKAux_append_nondigit a _ ha, salaryKAux_200k b hb]

/-- Witness for the amended C4. -/
theorem salary200k_resolves_witness :
    (aiInterpret (String.data "зп от 200к")).salary = some 200000 :=
  salary200k_resolves (String.data "зп от 200к") (String.data "зп от ") []
    (by decide) (by decide) (by decide)

/-- A scan prefix with no ASCII digit cannot start a standalone-number
match; the carried previous character becomes the prefix's last one. -/
theorem extractIntAux_append_nondigit (a : Str) (prev : Option Char) (rest : Str)
    (ha : ∀ c ∈ a, c.isDigit = false) :
    extractIntAux prev (a ++ rest) = extractIntAux (a.getLast?.or prev) rest := by
  induction a generalizing prev with
  | nil => rfl
  | cons c as ih =>
    have hc : c.isDigit = false := ha c (by simp)
    have ih' := ih (some c) (fun x hx => ha x (by simp [hx]))
    have hstep : extractIntAux prev ((c :: as) ++ rest) =
        extractIntAux (some c) (as ++ rest) := by
      rw [List.cons_append, extractIntAux.eq_def]
      simp [hc]
    rw [hstep, ih']
    cases as with
    | nil => simp
    | cons d ds =>
      rw [List.getLast?_cons_cons]
      rcases h : (d :: ds).getLast? with _ | y
      · exact absurd h (by simp [List.getLast?_isSome] at *)
      · rfl

/-- Claim C10: the desiredCount and experience-range detectors overlap —
when the first candidate digit of the text is the leading digit of a
range token such as "1-3" (a standalone '1' followed by a non-digit,
non-word separator), the interpreter reports desiredCount 1. -/
theorem rangeLeadingDigit_is_desiredCount (s a b : Str) (c : Char)
    (hdec : lowerStr (normText s) = a ++ ('1' :: c :: b))
    (ha : ∀ x ∈ a, x.isDigit = false)
    (hlast : ∀ x, a.getLast? = some x → isWordChar x = false)
    (hc1 : c.isDigit = false) (hc2 : isWordChar c = false) :
    (aiInterpret s).want_n = some 1 := by
  unfold aiInterpret
  dsimp only
  rw [hdec]
  unfold extractInt
  rw [extractIntAux_append_nondigit a none _ ha, Option.or_none]
  have hbd : boundaryBefore a.getLast? = true := by
    cases hA : a.getLast? with
    | none => rfl
    | some x => simp [boundaryBefore, hlast x hA]
  rw [extractIntAux.eq_def]
  simp [hbd, hc1, hc2, digitVal]

/-- Witness for C10: the input "опыт 1-3" (only digits are the range) has
desiredCount 1. -/
theorem rangeLeadingDigit_witness :
    (aiInterpret (String.data "опыт 1-3")).want_n = some 1 :=
  rangeLeadingDigit_is_desiredCount (String.data "опыт 1-3")
    (String.data "опыт ") (String.data "3") '-'
    (by decide) (by decide) (by decide) (by decide) (by decide)

/-- The empty pattern matches any head. -/
theorem beginsWith_nil (s : Str) : beginsWith s [] = true := by
  cases s <;> rfl

/-- A prefix match survives appending on the right. -/
theorem beginsWith_append (s pat x : Str) (h : beginsWith s pat = true) :
    beginsWith (s ++ x) pat = true := by
  induction pat generalizing s with
  | nil => exact beginsWith_nil _
  | cons p ps ih =>
    cases s with
    | nil => simp [beginsWith] at h
    | cons c cs =>
      rw [beginsWith] at h
      rw [List.cons_append, beginsWith]
      rcases Bool.and_eq_true_iff.mp h with ⟨h1, h2⟩
      rw [h1, ih cs h2]
      rfl

/-- A substring occurrence survives appending on the right. -/
theorem containsSub_append_right (s pat x : Str) (h : containsSub s pat = true) :
    containsSub (s ++ x) pat = true := by
  induction s with
  | nil =>
    rw [containsSub.eq_def] at h
    cases pat with
    | nil =>
      rw [List.nil_append, containsSub.eq_def]
      simp [beginsWith_nil]
    | cons p ps => simp [beginsWith] at h
  | cons c cs ih =>
    have hstep : ∀ b : Str, containsSub (c :: b) pat =
        if beginsWith (c :: b) pat = true then true else containsSub b pat :=
      fun b => rfl
    rw [hstep] at h
    rw [List.cons_append, hstep]
    by_cases hb : beginsWith (c :: cs) pat = true
    · have hb2 : beginsWith (c :: (cs ++ x)) pat = true := by
        have := beginsWith_append (c :: cs) pat x hb
        rwa [List.cons_append] at this
      simp [hb2]
    · simp only [hb, Bool.false_eq_true, if_false] at h
      have := ih h
      by_cases hb2 : beginsWith (c :: (cs ++ x)) pat = true
      · simp [hb2]
      · simp [hb2, this]

/-- Stripping the query: `takeWhile notQMark` cuts exactly at the first
appended `?` when the prefix is `?`-free. -/
theorem takeWhile_no_query (x y : Str) (hx : ∀ c ∈ x, c ≠ '?') :
    (x ++ '?' :: y).takeWhile notQMark = x := by
  induction x with
  | nil =>
    rw [List.nil_append, List.takeWhile_cons]
    simp [notQMark]
  | cons c cs ih =>
    have hc : c ≠ '?' := hx c (by simp)
    have hcq : notQMark c = true := by simp [notQMark, hc]
    rw [List.cons_append, List.takeWhile_cons, hcq]
    rw [ih (fun d hd => hx d (by simp [hd]))]
    simp

/-- Loop invariant of the collector: collected urls are pairwise distinct
and disjoint from the running dedup set. -/
theorem collectAux_nodup (as : List AnchorModel) : ∀ (seen : List Str) (cnt : Nat),
    ((collectAux seen cnt as).map Vacancy.url).Nodup ∧
    ∀ u ∈ (collectAux seen cnt as).map Vacancy.url, u ∉ seen := by
  induction as with
  | nil =>
    intro seen cnt
    simp [collectAux]
  | cons a rest ih =>
    intro seen cnt
    rw [collectAux]
    by_cases h1 : (!containsSub (a.href.getD []) vacMarker) = true
    · rw [if_pos h1]
      exact ih seen cnt
    · rw [if_neg h1]
      by_cases h2 : seen.contains (canonicalUrl (a.href.getD [])) = true
      · rw [if_pos h2]
        exact ih seen cnt
      · rw [if_neg h2]
        have hnseen : canonicalUrl (a.href.getD []) ∉ seen := by simpa using h2
        cases htx : a.text with
        | none =>
          dsimp only
          exact ⟨(ih _ _).1,
            fun u hu hus => (ih _ _).2 u hu (List.mem_cons_of_mem _ hus)⟩
        | some tx =>
          dsimp only
          by_cases ht : normText tx = []
          · rw [if_pos ht]
            exact ⟨(ih _ _).1,
              fun u hu hus => (ih _ _).2 u hu (List.mem_cons_of_mem _ hus)⟩
          · rw [if_neg ht]
            by_cases hcap : cnt + 1 ≥ ITEMS_ON_PAGE
            · rw [if_pos hcap]
              refine ⟨by simp, ?_⟩
              intro u hu
              simp only [List.map_cons, List.map_nil, List.mem_singleton] at hu
              rw [hu]
              exact hnseen
            · rw [if_neg hcap]
              have hrec := ih (canonicalUrl (a.href.getD []) :: seen) (cnt + 1)
              constructor
              · rw [List.map_cons, List.nodup_cons]
                exact ⟨fun hmem => hrec.2 _ hmem (List.mem_cons_self _ _), hrec.1⟩
              · intro u hu
                rw [List.map_cons] at hu
                rcases List.mem_cons.mp hu with rfl | hu2
                · exact hnseen
                · intro hus
                  exact hrec.2 u hu2 (List.mem_cons_of_mem _ hus)

/-- The collector's output urls are a subsequence of the canonical urls
of qualifying anchors in order of first page appearance. -/
theorem collectAux_sublist (as : List AnchorModel) : ∀ (seen : List Str) (cnt : Nat),
    ((collectAux seen cnt as).map Vacancy.url).Sublist (candKeys seen as) := by
  induction as with
  | nil =>
    intro seen cnt
    simp [collectAux, candKeys]
  | cons a rest ih =>
    intro seen cnt
    rw [collectAux, candKeys]
    dsimp only
    by_cases h1 : (!containsSub (a.href.getD []) vacMarker) = true
    · rw [if_pos h1, if_pos h1]
      exact ih seen cnt
    · rw [if_neg h1, if_neg h1]
      by_cases h2 : seen.contains (canonicalUrl (a.href.getD [])) = true
      · rw [if_pos h2, if_pos h2]
        exact ih seen cnt
      · rw [if_neg h2, if_neg h2]
        cases htx : a.text with
        | none =>
          dsimp only
          exact (ih _ _).cons _
        | some tx =>
          dsimp only
          by_cases ht : normText tx = []
          · rw [if_pos ht]
            exact (ih _ _).cons _
          · rw [if_neg ht]
            by_cases hcap : cnt + 1 ≥ ITEMS_ON_PAGE
            · rw [if_pos hcap]
              simp only [List.map_cons, List.map_nil]
              exact (List.nil_sublist _).cons₂ _
            · rw [if_neg hcap]
              simp only [List.map_cons]
              exact (ih _ _).cons₂ _

/-- `takeWhile notQMark` keeps a `?`-free string whole. -/
theorem takeWhile_no_qmark_self (x : Str) (hx : ∀ c ∈ x, c ≠ '?') :
    x.takeWhile notQMark = x := by
  induction x with
  | nil => rfl
  | cons c cs ih =>
    have hc : notQMark c = true := by simp [notQMark, hx c (by simp)]
    rw [List.takeWhile_cons, hc]
    simp [ih (fun d hd => hx d (by simp [hd]))]

/-- The canonical url ignores the query string: anchors differing only in
the query share a canonical identity. -/
theorem canonicalUrl_append_query (base q : Str) (hq : ∀ c ∈ base, c ≠ '?')
    (hne : base ≠ []) :
    canonicalUrl (base ++ '?' :: q) = canonicalUrl base := by
  cases base with
  | nil => exact absurd rfl hne
  | cons b bs =>
    unfold canonicalUrl
    dsimp only
    rw [List.cons_append]
    simp only [List.take_succ_cons, List.take_zero]
    have hOq : ∀ c ∈ hhOrigin, c ≠ '?' := by decide
    have hall : ∀ c ∈ hhOrigin ++ b :: bs, c ≠ '?' := by
      intro c hc
      rcases List.mem_append.mp hc with h | h
      · exact hOq c h
      · exact hq c h
    by_cases hb : ([b] : Str) = ['/']
    · rw [if_pos hb, if_pos hb]
      have hassoc : hhOrigin ++ b :: (bs ++ '?' :: q) = (hhOrigin ++ b :: bs) ++ '?' :: q := by
        rw [List.append_assoc, List.cons_append]
      rw [hassoc, takeWhile_no_query _ _ hall, takeWhile_no_qmark_self _ hall]
    · rw [if_neg hb, if_neg hb]
      rw [show b :: (bs ++ '?' :: q) = (b :: bs) ++ '?' :: q from by rw [List.cons_append],
        takeWhile_no_query _ _ hq, takeWhile_no_qmark_self _ hq]

/-- Counterexample for C8 as frozen: two listing anchors differing only
in their query string whose shared title normalizes to empty collapse to
ZERO records, not one — the earlier anchor claims the canonical URL
before the title check, suppressing the later duplicate entirely. -/
theorem collect_empty_title_counterexample :
    collectVacancies
      [ { href := some (String.data "https://hh.ru/vacancy/1?from=a"),
          text := some (String.data " "), card := none },
        { href := some (String.data "https://hh.ru/vacancy/1?from=b"),
          text := some (String.data " "), card := none } ] = [] := by
  decide

/-- Claim C8 (amended): records are keyed by canonical URL (href with
query stripped, relative hrefs absolutized): the output is duplicate-free
by canonical URL; output order is a subsequence of the first-occurrence
order of qualifying canonical URLs; and two anchors differing only in
query string collapse to AT MOST one record — exactly the earlier one
when its title is non-empty (an earlier empty-title anchor suppresses the
pair entirely, as the counterexample shows). -/
theorem collect_canonical_dedup :
    (∀ as : List AnchorModel, ((collectVacancies as).map Vacancy.url).Nodup) ∧
    (∀ as : List AnchorModel,
      ((collectVacancies as).map Vacancy.url).Sublist
        (candKeys [] (as.take MAX_LINKS_SCAN))) ∧
    (∀ (base q1 q2 tx : Str) (card : Option Str),
      containsSub base vacMarker = true → (∀ c ∈ base, c ≠ '?') →
      normText tx ≠ [] →
      collectVacancies
        [ { href := some (base ++ '?' :: q1), text := some tx, card := card },
          { href := some (base ++ '?' :: q2), text := some tx, card := card } ] =
        [ { title := normText tx, url := canonicalUrl base,
            snippet := match card with
              | some s => (normText s).take 450
              | none => [] } ]) := by
  refine ⟨fun as => (collectAux_nodup _ [] 0).1, fun as => collectAux_sublist _ [] 0, ?_⟩
  intro base q1 q2 tx card hm hq ht
  have hneB : base ≠ [] := by
    intro h
    subst h
    exact absurd hm (by decide)
  have hm1 : containsSub (base ++ '?' :: q1) vacMarker = true :=
    containsSub_append_right _ _ _ hm
  have hm2 : containsSub (base ++ '?' :: q2) vacMarker = true :=
    containsSub_append_right _ _ _ hm
  have hc1 : canonicalUrl (base ++ '?' :: q1) = canonicalUrl base :=
    canonicalUrl_append_query _ _ hq hneB
  have hc2 : canonicalUrl (base ++ '?' :: q2) = canonicalUrl base :=
    canonicalUrl_append_query _ _ hq hneB
  unfold collectVacancies
  rw [show List.take MAX_LINKS_SCAN
      [ ({ href := some (base ++ '?' :: q1), text := some tx, card := card } : AnchorModel),
        { href := some (base ++ '?' :: q2), text := some tx, card := card } ] =
      [ ({ href := some (base ++ '?' :: q1), text := some tx, card := card } : AnchorModel),
        { href := some (base ++ '?' :: q2), text := some tx, card := card } ] from rfl]
  rw [collectAux]
  dsimp only
  simp only [Option.getD_some]
  rw [if_neg (by simp [hm1]), if_neg (by simp), if_neg ht,
    if_neg (by decide : ¬ 0 + 1 ≥ ITEMS_ON_PAGE)]
  rw [collectAux]
  dsimp only
  simp only [Option.getD_some]
  rw [if_neg (by simp [hm2]), if_pos (by rw [hc1, hc2]; simp)]
  rw [collectAux, hc1]

/-- Witness for the amended C8: two concrete anchors differing only in
query collapse to the earlier record. -/
theorem collect_canonical_dedup_witness :
    collectVacancies
      [ { href := some (String.data "/vacancy/2" ++ '?' :: String.data "x=1"),
          text := some (String.data "Dev"), card := none },
        { href := some (String.data "/vacancy/2" ++ '?' :: String.data "y=2"),
          text := some (String.data "Dev"), card := none } ] =
      [ { title := normText (String.data "Dev"),
          url := canonicalUrl (String.data "/vacancy/2"), snippet := [] } ] :=
  collect_canonical_dedup.2.2 (String.data "/vacancy/2") (String.data "x=1")
    (String.data "y=2") (String.data "Dev") none (by decide) (by decide) (by decide)

/-!
Lemmas for the query-parameter idempotence claim.
-/

/-- `Char.toNat` determines the character. -/
theorem charToNat_inj (a b : Char) (h : a.toNat = b.toNat) : a = b := by
  rw [← Char.ofNat_toNat a, h, Char.ofNat_toNat]

/-- `Char.ofNat` round-trips on values below the surrogate range. -/
theorem charOfNat_toNat (n : Nat) (h : n < 0xd800) : (Char.ofNat n).toNat = n := by
  have hv : n.isValidChar := Or.inl h
  simp [Char.ofNat, hv, Char.ofNatAux, Char.toNat, UInt32.toNat, BitVec.toNat_ofNatLt]

/-- Every character's code point is below 0x110000. -/
theorem charToNat_lt (c : Char) : c.toNat < 0x110000 := by
  have h := c.valid
  rw [show c.toNat = c.val.toNat from rfl]
  rcases h with h | h
  · omega
  · omega

/-- `splitFirst?` found nothing exactly when the separator is absent. -/
theorem splitFirst_none (sep : Char) (l : Str) (h : sep ∉ l) :
    splitFirst? sep l = none := by
  induction l with
  | nil => rfl
  | cons c rest ih =>
    rw [splitFirst?]
    rw [if_neg (fun hc => h (by rw [← hc]; exact List.mem_cons_self c rest))]
    rw [ih (fun hm => h (List.mem_cons_of_mem _ hm))]

/-- Any successful `splitFirst?` decomposes the list at the FIRST
occurrence of the separator. -/
theorem splitFirst_eq (sep : Char) (l x y : Str) (h : splitFirst? sep l = some (x, y)) :
    l = x ++ sep :: y ∧ sep ∉ x := by
  induction l generalizing x y with
  | nil => simp [splitFirst?] at h
  | cons c rest ih =>
    rw [splitFirst?] at h
    by_cases hc : c = sep
    · rw [if_pos hc] at h
      simp only [Option.some_inj, Prod.mk.injEq] at h
      obtain ⟨rfl, rfl⟩ := h
      subst hc
      exact ⟨rfl, by simp⟩
    · rw [if_neg hc] at h
      cases hsp : splitFirst? sep rest with
      | none => rw [hsp] at h; simp at h
      | some p =>
        obtain ⟨x', y'⟩ := p
        rw [hsp] at h
        simp only [Option.some_inj, Prod.mk.injEq] at h
        obtain ⟨rfl, rfl⟩ := h
        obtain ⟨hdec, hnm⟩ := ih x' y' hsp
        constructor
        · rw [List.cons_append, ← hdec]
        · intro hm
          rcases List.mem_cons.mp hm with h1 | h1
          · exact hc h1.symm
          · exact hnm h1

/-- `splitFirst?` cuts at an explicitly placed first separator. -/
theorem splitFirst_at (sep : Char) (a b : Str) (ha : sep ∉ a) :
    splitFirst? sep (a ++ sep :: b) = some (a, b) := by
  induction a with
  | nil =>
    rw [List.nil_append, splitFirst?, if_pos rfl]
  | cons c a0 ih =>
    have hc : ¬ c = sep := fun h => ha (by rw [h]; exact List.mem_cons_self _ _)
    rw [List.cons_append, splitFirst?, if_neg hc,
      ih (fun hm => ha (List.mem_cons_of_mem _ hm))]

/-- `splitFirst?` skips over a separator-free prefix. -/
theorem splitFirst_shift (sep : Char) (a b : Str) (ha : sep ∉ a) :
    splitFirst? sep (a ++ b) =
      match splitFirst? sep b with
      | some (x, y) => some (a ++ x, y)
      | none => none := by
  induction a with
  | nil =>
    rw [List.nil_append]
    cases h : splitFirst? sep b with
    | none => rfl
    | some p => obtain ⟨x, y⟩ := p; rfl
  | cons c a0 ih =>
    have hc : ¬ c = sep := fun h => ha (by rw [h]; exact List.mem_cons_self _ _)
    rw [List.cons_append, splitFirst?, if_neg hc,
      ih (fun hm => ha (List.mem_cons_of_mem _ hm))]
    cases h : splitFirst? sep b with
    | none => rfl
    | some p => obtain ⟨x, y⟩ := p; rfl

/-- A separator-free string is one whole field. -/
theorem splitOn_no_sep (sep : Char) (x : Str) (hx : sep ∉ x) :
    splitOnChar sep x = [x] := by
  induction x with
  | nil => rfl
  | cons c cs ih =>
    have hc : ¬ c = sep := fun h => hx (by rw [h]; exact List.mem_cons_self _ _)
    rw [splitOnChar, if_neg hc, ih (fun hm => hx (List.mem_cons_of_mem _ hm))]

/-- Splitting after a separator-free field peels exactly that field. -/
theorem splitOn_cons_field (sep : Char) (x t : Str) (hx : sep ∉ x) :
    splitOnChar sep (x ++ sep :: t) = x :: splitOnChar sep t := by
  induction x with
  | nil =>
    rw [List.nil_append, splitOnChar, if_pos rfl]
  | cons c cs ih =>
    have hc : ¬ c = sep := fun h => hx (by rw [h]; exact List.mem_cons_self _ _)
    rw [List.cons_append, splitOnChar, if_neg hc,
      ih (fun hm => hx (List.mem_cons_of_mem _ hm))]

/-- `str.split('&')` inverts `'&'.join` on separator-free fields. -/
theorem splitOn_joinAmp (fs : List Str) (hfs : ∀ f ∈ fs, '&' ∉ f) (hne : fs ≠ []) :
    splitOnChar '&' (joinAmp fs) = fs := by
  induction fs with
  | nil => exact absurd rfl hne
  | cons f rest ih =>
    cases rest with
    | nil => exact splitOn_no_sep '&' f (hfs f (by simp))
    | cons g rest2 =>
      have ih' := ih (fun x hx => hfs x (List.mem_cons_of_mem _ hx)) (by intro h; cases h)
      rw [joinAmp, splitOn_cons_field '&' f _ (hfs f (by simp)), ih']
      intro h
      exact List.noConfusion h

/-- Every UTF-8 byte of a code point is below 256. -/
theorem utf8Bytes_lt_256 (v : Nat) (hv : v < 0x110000) :
    ∀ b ∈ utf8Bytes v, b < 256 := by
  intro b hb
  unfold utf8Bytes at hb
  split at hb
  · simp at hb; omega
  · split at hb
    · simp at hb
      rcases hb with rfl | rfl <;> omega
    · split at hb
      · simp at hb
        rcases hb with rfl | rfl | rfl <;> omega
      · simp at hb
        rcases hb with rfl | rfl | rfl | rfl <;> omega

/-- Every UTF-8 byte of a multi-byte code point is at least 0x80. -/
theorem utf8Bytes_ge_128 (v : Nat) (hv : 0x80 ≤ v) :
    ∀ b ∈ utf8Bytes v, 0x80 ≤ b := by
  intro b hb
  unfold utf8Bytes at hb
  split at hb
  · omega
  · split at hb
    · simp at hb
      rcases hb with rfl | rfl <;> omega
    · split at hb
      · simp at hb
        rcases hb with rfl | rfl | rfl <;> omega
      · simp at hb
        rcases hb with rfl | rfl | rfl | rfl <;> omega

/-- The character classes occurring in `quote_plus` output. -/
theorem mem_quotePlus_toNat (s : Str) (y : Char) (hy : y ∈ quotePlus s) :
    isSafeByte y.toNat = true ∨ y.toNat = 43 ∨ y.toNat = 37 ∨
    (48 ≤ y.toNat ∧ y.toNat ≤ 57) ∨ (65 ≤ y.toNat ∧ y.toNat ≤ 70) := by
  unfold quotePlus at hy
  rcases List.mem_flatMap.mp hy with ⟨c, _, hy2⟩
  rcases List.mem_flatMap.mp hy2 with ⟨b, hb, hy3⟩
  have hb256 : b < 256 := utf8Bytes_lt_256 c.toNat (charToNat_lt c) b hb
  unfold quoteByte at hy3
  split at hy3
  · next hsafe =>
    simp only [List.mem_singleton] at hy3
    subst hy3
    rw [charOfNat_toNat b (by omega)]
    exact Or.inl hsafe
  · split at hy3
    · next heq =>
      simp only [List.mem_singleton] at hy3
      subst hy3
      right; left; rfl
    · simp only [List.mem_cons, List.not_mem_nil, or_false] at hy3
      rcases hy3 with rfl | rfl | rfl
      · right; right; left; rfl
      · unfold hexDigitU
        rw [charOfNat_toNat _ (by split <;> omega)]
        have hd : b / 16 < 16 := by omega
        by_cases h10 : b / 16 < 10
        · rw [if_pos h10]
          right; right; right; left
          omega
        · rw [if_neg h10]
          right; right; right; right
          omega
      · unfold hexDigitU
        rw [charOfNat_toNat _ (by split <;> omega)]
        have hd : b % 16 < 16 := Nat.mod_lt _ (by omega)
        by_cases h10 : b % 16 < 10
        · rw [if_pos h10]
          right; right; right; left
          omega
        · rw [if_neg h10]
          right; right; right; right
          omega

/-- `quote_plus` output never contains url delimiters or unsafe bytes. -/
theorem quotePlus_clean (s : Str) : clean (quotePlus s) := by
  intro y hy
  have h := mem_quotePlus_toNat s y hy
  refine ⟨?_, ?_, ?_, ?_, ?_⟩ <;> intro he <;> subst he <;> revert h <;> decide

/-- `quote_plus` output never contains the pair separator `&`. -/
theorem amp_not_mem_quotePlus (s : Str) : '&' ∉ quotePlus s := by
  intro hy
  have h := mem_quotePlus_toNat s '&' hy
  revert h
  decide

/-- `quote_plus` output never contains the key-value separator `=`. -/
theorem eqs_not_mem_quotePlus (s : Str) : '=' ∉ quotePlus s := by
  intro hy
  have h := mem_quotePlus_toNat s '=' hy
  revert h
  decide

/-- `quote_plus` output never contains `+` escaping issues: decoding a
hex digit pair produced by the encoder recovers the nibble. -/
theorem hexVal_hexDigitU (n : Nat) (h : n < 16) : hexVal? (hexDigitU n) = some n := by
  interval_cases n <;> decide

/-- UTF-8 decoding inverts encoding, one code point at a time. -/
theorem utf8Decode_encode (v : Nat) (hv : v < 0x110000) (rest : List Nat) :
    utf8Decode (utf8Bytes v ++ rest) = Char.ofNat v :: utf8Decode rest := by
  unfold utf8Bytes
  by_cases h1 : v < 0x80
  · rw [if_pos h1, List.singleton_append, utf8Decode.eq_def]
    simp only [h1, if_true]
  · rw [if_neg h1]
    by_cases h2 : v < 0x800
    · rw [if_pos h2]
      rw [show ([0xC0 + v / 0x40, 0x80 + v % 0x40] : List Nat) ++ rest =
        (0xC0 + v / 0x40) :: (0x80 + v % 0x40) :: rest from rfl]
      rw [utf8Decode.eq_def]
      have hb1 : ¬ 0xC0 + v / 0x40 < 0x80 := by omega
      have hb2 : ¬ 0xC0 + v / 0x40 < 0xC2 := by omega
      have hb3 : 0xC0 + v / 0x40 < 0xE0 := by omega
      have hc : isContByte (0x80 + v % 0x40) = true := by
        simp only [isContByte, Bool.and_eq_true, decide_eq_true_eq]
        omega
      simp only [hb1, hb2, hb3, hc, if_false, if_true]
      have hcont2 : utf8Cont2 (0xC0 + v / 0x40) ((0x80 + v % 0x40) :: rest) =
          some (v, rest) := by
        unfold utf8Cont2
        dsimp only
        rw [if_pos hc]
        have hval : (0xC0 + v / 0x40 - 0xC0) * 0x40 + (0x80 + v % 0x40 - 0x80) = v := by
          omega
        rw [hval]
      rw [hcont2]
    · rw [if_neg h2]
      by_cases h3 : v < 0x10000
      · rw [if_pos h3]
        rw [show ([0xE0 + v / 0x1000, 0x80 + v / 0x40 % 0x40, 0x80 + v % 0x40] : List Nat)
          ++ rest =
          (0xE0 + v / 0x1000) :: (0x80 + v / 0x40 % 0x40) :: (0x80 + v % 0x40) :: rest
          from rfl]
        rw [utf8Decode.eq_def]
        have hb1 : ¬ 0xE0 + v / 0x1000 < 0x80 := by omega
        have hb2 : ¬ 0xE0 + v / 0x1000 < 0xC2 := by omega
        have hb3 : ¬ 0xE0 + v / 0x1000 < 0xE0 := by omega
        have hb4 : 0xE0 + v / 0x1000 < 0xF0 := by omega
        have hc1 : isContByte (0x80 + v / 0x40 % 0x40) = true := by
          simp only [isContByte, Bool.and_eq_true, decide_eq_true_eq]
          omega
        have hc2 : isContByte (0x80 + v % 0x40) = true := by
          simp only [isContByte, Bool.and_eq_true, decide_eq_true_eq]
          omega
        simp only [hb1, hb2, hb3, hb4, if_false, if_true]
        have hcont3 : utf8Cont3 (0xE0 + v / 0x1000)
            ((0x80 + v / 0x40 % 0x40) :: (0x80 + v % 0x40) :: rest) = some (v, rest) := by
          unfold utf8Cont3
          dsimp only
          rw [if_pos (by rw [hc1, hc2]; rfl)]
          have hval : (0xE0 + v / 0x1000 - 0xE0) * 0x1000 +
              (0x80 + v / 0x40 % 0x40 - 0x80) * 0x40 + (0x80 + v % 0x40 - 0x80) = v := by
            omega
          rw [hval]
        rw [hcont3]
      · rw [if_neg h3]
        rw [show ([0xF0 + v / 0x40000, 0x80 + v / 0x1000 % 0x40, 0x80 + v / 0x40 % 0x40,
            0x80 + v % 0x40] : List Nat) ++ rest =
          (0xF0 + v / 0x40000) :: (0x80 + v / 0x1000 % 0x40) :: (0x80 + v / 0x40 % 0x40) ::
            (0x80 + v % 0x40) :: rest from rfl]
        rw [utf8Decode.eq_def]
        have hb1 : ¬ 0xF0 + v / 0x40000 < 0x80 := by omega
        have hb2 : ¬ 0xF0 + v / 0x40000 < 0xC2 := by omega
        have hb3 : ¬ 0xF0 + v / 0x40000 < 0xE0 := by omega
        have hb4 : ¬ 0xF0 + v / 0x40000 < 0xF0 := by omega
        have hb5 : 0xF0 + v / 0x40000 < 0xF8 := by omega
        have hc1 : isContByte (0x80 + v / 0x1000 % 0x40) = true := by
          simp only [isContByte, Bool.and_eq_true, decide_eq_true_eq]
          omega
        have hc2 : isContByte (0x80 + v / 0x40 % 0x40) = true := by
          simp only [isContByte, Bool.and_eq_true, decide_eq_true_eq]
          omega
        have hc3 : isContByte (0x80 + v % 0x40) = true := by
          simp only [isContByte, Bool.and_eq_true, decide_eq_true_eq]
          omega
        simp only [hb1, hb2, hb3, hb4, hb5, if_false, if_true]
        have hcont4 : utf8Cont4 (0xF0 + v / 0x40000)
            ((0x80 + v / 0x1000 % 0x40) :: (0x80 + v / 0x40 % 0x40) ::
              (0x80 + v % 0x40) :: rest) = some (v, rest) := by
          unfold utf8Cont4
          dsimp only
          rw [if_pos (by rw [hc1, hc2, hc3]; rfl)]
          have hval : (0xF0 + v / 0x40000 - 0xF0) * 0x40000 +
              (0x80 + v / 0x1000 % 0x40 - 0x80) * 0x1000 +
              (0x80 + v / 0x40 % 0x40 - 0x80) * 0x40 + (0x80 + v % 0x40 - 0x80) = v := by
            omega
          rw [hval]
        rw [hcont4]

/-- ASCII code points encode as themselves. -/
theorem utf8Bytes_small (v : Nat) (h : v < 0x80) : utf8Bytes v = [v] := by
  unfold utf8Bytes
  rw [if_pos h]

/-- Safe bytes are plain ASCII and none of the recoding characters. -/
theorem isSafeByte_facts (b : Nat) (h : isSafeByte b = true) :
    b < 0x80 ∧ b ≠ 43 ∧ b ≠ 37 ∧ b ≠ 32 := by
  simp only [isSafeByte, Bool.or_eq_true, Bool.and_eq_true, decide_eq_true_eq] at h
  omega

/-- A byte list every element of which decodes to itself as an escape. -/
theorem flatMap_itemOfByte_inr (bs : List Nat) (hbs : ∀ b ∈ bs, itemOfByte b = [Sum.inr b]) :
    bs.flatMap itemOfByte = bs.map Sum.inr := by
  induction bs with
  | nil => rfl
  | cons b bs' ih =>
    rw [List.flatMap_cons, List.map_cons, hbs b (by simp),
      ih (fun x hx => hbs x (List.mem_cons_of_mem _ hx))]
    rfl

/-- Decoding the quoted form of a byte list (items stage). -/
theorem unquoteItems_quoteBytes (bs : List Nat) (hbs : ∀ b ∈ bs, b < 256) (t : Str) :
    unquoteItems (bs.flatMap quoteByte ++ t) = bs.flatMap itemOfByte ++ unquoteItems t := by
  induction bs with
  | nil => rfl
  | cons b bs' ih =>
    have hb : b < 256 := hbs b (by simp)
    have ih' := ih (fun x hx => hbs x (List.mem_cons_of_mem _ hx))
    rw [List.flatMap_cons, List.flatMap_cons, List.append_assoc, quoteByte]
    by_cases hsafe : isSafeByte b = true
    · rw [if_pos hsafe]
      obtain ⟨hb80, hb43, hb37, hb32⟩ := isSafeByte_facts b hsafe
      have hplus : ¬ Char.ofNat b = '+' := by
        intro hc
        have := charOfNat_toNat b (by omega)
        rw [hc] at this
        exact hb43 this.symm
      have hpct : ¬ Char.ofNat b = '%' := by
        intro hc
        have := charOfNat_toNat b (by omega)
        rw [hc] at this
        exact hb37 this.symm
      rw [List.singleton_append, unquoteItems, if_neg hplus, if_neg hpct]
      rw [itemOfByte, if_pos hsafe, List.singleton_append, ih']
      rfl
    · rw [if_neg hsafe]
      by_cases h32 : b = 32
      · rw [if_pos h32]
        rw [List.singleton_append, unquoteItems, if_pos rfl]
        rw [itemOfByte, if_neg hsafe, if_pos h32, List.singleton_append, ih']
        rfl
      · rw [if_neg h32]
        have hplus : ¬ ('%' : Char) = '+' := by decide
        rw [show (['%', hexDigitU (b / 16), hexDigitU (b % 16)] : Str) ++
            (bs'.flatMap quoteByte ++ t) =
            '%' :: hexDigitU (b / 16) :: hexDigitU (b % 16) ::
              (bs'.flatMap quoteByte ++ t) from rfl]
        rw [unquoteItems, if_neg hplus, if_pos rfl]
        have hhex : unquoteHex (hexDigitU (b / 16) :: hexDigitU (b % 16) ::
            (bs'.flatMap quoteByte ++ t)) = some (b, bs'.flatMap quoteByte ++ t) := by
          unfold unquoteHex
          dsimp only
          rw [hexVal_hexDigitU (b / 16) (by omega),
            hexVal_hexDigitU (b % 16) (Nat.mod_lt _ (by omega))]
          dsimp only
          have : b / 16 * 16 + b % 16 = b := by omega
          rw [this]
        rw [hhex]
        dsimp only
        rw [itemOfByte, if_neg hsafe, if_neg h32, List.singleton_append, ih']
        rfl

/-- Items of the full quoted string. -/
theorem unquoteItems_quote (s : Str) :
    unquoteItems (quotePlus s) =
      s.flatMap (fun c => (utf8Bytes c.toNat).flatMap itemOfByte) := by
  induction s with
  | nil =>
    rw [show quotePlus [] = ([] : Str) from rfl, List.flatMap_nil, unquoteItems]
  | cons c s' ih =>
    have hq : quotePlus (c :: s') =
        (utf8Bytes c.toNat).flatMap quoteByte ++ quotePlus s' := by
      unfold quotePlus
      rw [List.flatMap_cons]
    rw [hq, unquoteItems_quoteBytes _ (utf8Bytes_lt_256 _ (charToNat_lt c)) _, ih,
      List.flatMap_cons]

/-- A character's items are either one raw character or its escaped byte
run. -/
theorem itemsEnc_cases (c : Char) :
    (utf8Bytes c.toNat).flatMap itemOfByte = [Sum.inl c] ∨
    (utf8Bytes c.toNat).flatMap itemOfByte = (utf8Bytes c.toNat).map Sum.inr := by
  by_cases h80 : c.toNat < 0x80
  · rw [utf8Bytes_small _ h80, List.flatMap_cons, List.flatMap_nil, List.append_nil,
      itemOfByte]
    by_cases hsafe : isSafeByte c.toNat = true
    · rw [if_pos hsafe]
      left
      rw [Char.ofNat_toNat]
    · rw [if_neg hsafe]
      by_cases h32 : c.toNat = 32
      · rw [if_pos h32]
        left
        have hsp : c = ' ' := charToNat_inj c ' ' (by rw [h32]; rfl)
        rw [hsp]
      · rw [if_neg h32]
        right
        rfl
  · right
    apply flatMap_itemOfByte_inr
    intro b hb
    have hb128 : 0x80 ≤ b := utf8Bytes_ge_128 _ (by omega) b hb
    have hns : ¬ isSafeByte b = true := fun h => by
      have := (isSafeByte_facts b h).1
      omega
    rw [itemOfByte, if_neg hns, if_neg (by omega)]

/-- A run of escaped bytes accumulates. -/
theorem groupDecode_inr (bs : List Nat) (t : List (Sum Char Nat)) :
    ∀ acc, groupDecode acc (bs.map Sum.inr ++ t) = groupDecode (bs.reverse ++ acc) t := by
  induction bs with
  | nil => intro acc; simp
  | cons b bs' ih =>
    intro acc
    rw [List.map_cons, List.cons_append, groupDecode, ih (b :: acc),
      List.reverse_cons, List.append_assoc, List.singleton_append]

/-- Decoding the byte stream of a character run recovers the characters. -/
theorem utf8Decode_encRun (cs : List Char) (X : List Nat) :
    utf8Decode (encRun cs ++ X) = cs ++ utf8Decode X := by
  induction cs with
  | nil => rfl
  | cons c cs' ih =>
    have h1 : encRun (c :: cs') = utf8Bytes c.toNat ++ encRun cs' := by
      unfold encRun
      rw [List.flatMap_cons]
    rw [h1, List.append_assoc, utf8Decode_encode _ (charToNat_lt c), Char.ofNat_toNat, ih]
    rfl

/-- The grouped decode of the item stream, with an already-accumulated
character run. -/
theorem groupDecode_items (s : Str) : ∀ cs : List Char,
    groupDecode (encRun cs).reverse
      (s.flatMap (fun c => (utf8Bytes c.toNat).flatMap itemOfByte)) = cs ++ s := by
  induction s with
  | nil =>
    intro cs
    rw [List.flatMap_nil, groupDecode, List.reverse_reverse]
    have h := utf8Decode_encRun cs []
    rw [List.append_nil] at h
    rw [h]
    rw [show utf8Decode [] = [] from by rw [utf8Decode], List.append_nil]
  | cons c s' ih =>
    intro cs
    rw [List.flatMap_cons]
    rcases itemsEnc_cases c with hc | hc
    · rw [hc, List.singleton_append, groupDecode, List.reverse_reverse]
      have hdec : utf8Decode (encRun cs) = cs := by
        have h := utf8Decode_encRun cs []
        rw [List.append_nil] at h
        rw [h, show utf8Decode [] = [] from by rw [utf8Decode], List.append_nil]
      rw [hdec]
      have h0 := ih []
      rw [show (encRun ([] : List Char)).reverse = ([] : List Nat) from rfl,
        List.nil_append] at h0
      rw [h0]
    · rw [hc, groupDecode_inr]
      have hrev : (utf8Bytes c.toNat).reverse ++ (encRun cs).reverse =
          (encRun (cs ++ [c])).reverse := by
        rw [← List.reverse_append]
        congr 1
        unfold encRun
        rw [List.flatMap_append, List.flatMap_cons, List.flatMap_nil, List.append_nil]
      rw [hrev, ih (cs ++ [c]), List.append_assoc, List.singleton_append]

/-- `unquote_plus` inverts `quote_plus`. -/
theorem unquotePlus_quotePlus (s : Str) : unquotePlus (quotePlus s) = s := by
  unfold unquotePlus
  rw [unquoteItems_quote]
  have h := groupDecode_items s []
  rw [show (encRun ([] : List Char)).reverse = ([] : List Nat) from rfl,
    List.nil_append] at h
  exact h

/-- `filterMap` by a function that keeps every element unchanged. -/
theorem filterMap_keep (l : List (Str × Str)) (G : Str × Str → Option (Str × Str))
    (h : ∀ x ∈ l, G x = some x) : l.filterMap G = l := by
  induction l with
  | nil => rfl
  | cons a l' ih =>
    rw [List.filterMap_cons, h a (by simp),
      ih (fun x hx => h x (List.mem_cons_of_mem _ hx))]

/-- `parse_qsl` inverts `urlencode`. -/
theorem parseQsl_urlencode (d : List (Str × Str)) :
    parseQsl (urlencodePairs d) = d := by
  cases d with
  | nil => rfl
  | cons kv0 rest0 =>
    unfold parseQsl urlencodePairs
    rw [splitOn_joinAmp _ ?hf ?hne]
    case hne => simp
    case hf =>
      intro f hf
      rcases List.mem_map.mp hf with ⟨kv, _, rfl⟩
      intro hamp
      rcases List.mem_append.mp hamp with h | h
      · exact amp_not_mem_quotePlus _ h
      · rcases List.mem_cons.mp h with h | h
        · exact absurd h (by decide)
        · exact amp_not_mem_quotePlus _ h
    rw [List.filterMap_map]
    apply filterMap_keep
    intro kv _
    dsimp only [Function.comp]
    rw [if_neg (by simp)]
    rw [splitFirst_at '=' _ _ (eqs_not_mem_quotePlus kv.1)]
    dsimp only
    rw [unquotePlus_quotePlus, unquotePlus_quotePlus]

/-- Updating an entry does not change the key sequence; a fresh key
appends. -/
theorem map_fst_dictInsert (d : List (Str × Str)) (k v : Str) :
    (dictInsert d k v).map Prod.fst =
      if d.any (fun kv => kv.1 = k) then d.map Prod.fst else d.map Prod.fst ++ [k] := by
  unfold dictInsert
  split
  · rw [List.map_map]
    apply List.map_congr_left
    intro kv _
    dsimp only [Function.comp]
    split <;> rfl
  · rw [List.map_append]
    rfl

/-- `dictInsert` preserves key uniqueness. -/
theorem dictInsert_nodup (d : List (Str × Str)) (k v : Str)
    (h : (d.map Prod.fst).Nodup) : ((dictInsert d k v).map Prod.fst).Nodup := by
  rw [map_fst_dictInsert]
  split
  · exact h
  · next hany =>
    have hk : k ∉ d.map Prod.fst := by
      intro hm
      rcases List.mem_map.mp hm with ⟨kv, hkv, hfst⟩
      exact hany (List.any_eq_true.mpr ⟨kv, hkv, by simp [hfst]⟩)
    rw [List.nodup_append]
    exact ⟨h, List.nodup_singleton _, fun a ha hb => hk (by
      rcases List.mem_singleton.mp hb with rfl
      exact ha)⟩

/-- Folding inserts over a key-distinct tail just appends it. -/
theorem dictFold_acc (ps : List (Str × Str)) : ∀ acc : List (Str × Str),
    (((acc ++ ps).map Prod.fst).Nodup) →
    ps.foldl (fun a kv => dictInsert a kv.1 kv.2) acc = acc ++ ps := by
  induction ps with
  | nil =>
    intro acc _
    rw [List.foldl_nil, List.append_nil]
  | cons kv ps' ih =>
    intro acc hn
    have hk : kv.1 ∉ acc.map Prod.fst := by
      rw [List.map_append] at hn
      intro hm
      exact (List.nodup_append.mp hn).2.2 hm
        (by rw [List.map_cons]; exact List.mem_cons_self _ _)
    have hins : dictInsert acc kv.1 kv.2 = acc ++ [kv] := by
      unfold dictInsert
      rw [if_neg (fun hany => hk (by
        rcases List.any_eq_true.mp hany with ⟨kv0, hkv0, hk0⟩
        simp only [decide_eq_true_eq] at hk0
        exact List.mem_map.mpr ⟨kv0, hkv0, hk0⟩))]
    rw [List.foldl_cons, hins,
      ih (acc ++ [kv]) (by rw [List.append_assoc, List.singleton_append]; exact hn),
      List.append_assoc, List.singleton_append]

/-- `dict(pairs)` is the identity on key-distinct pair lists. -/
theorem dictOfPairs_id (d : List (Str × Str)) (h : (d.map Prod.fst).Nodup) :
    dictOfPairs d = d := by
  unfold dictOfPairs
  have h2 := dictFold_acc d [] (by rw [List.nil_append]; exact h)
  rw [List.nil_append] at h2
  exact h2

/-- `dict(_)` always has pairwise-distinct keys. -/
theorem dictOfPairs_nodup (ps : List (Str × Str)) :
    ((dictOfPairs ps).map Prod.fst).Nodup := by
  unfold dictOfPairs
  have aux : ∀ (qs acc : List (Str × Str)), ((acc.map Prod.fst).Nodup) →
      (((qs.foldl (fun a kv => dictInsert a kv.1 kv.2) acc)).map Prod.fst).Nodup := by
    intro qs
    induction qs with
    | nil => intro acc h; exact h
    | cons kv qs' ih =>
      intro acc h
      rw [List.foldl_cons]
      exact ih _ (dictInsert_nodup _ _ _ h)
  exact aux ps [] (by simp)

/-- No entry of `d` carries key `k`, so the key filter is empty. -/
theorem filter_eq_nil_of_no_key (d : List (Str × Str)) (k : Str)
    (h : ∀ kv ∈ d, kv.1 ≠ k) : d.filter (fun kv => kv.1 = k) = [] := by
  induction d with
  | nil => rfl
  | cons a d' ih =>
    rw [List.filter_cons]
    rw [if_neg (by simp [h a (by simp)])]
    exact ih (fun kv hkv => h kv (List.mem_cons_of_mem _ hkv))

/-- After `d[k] = v` on a key-distinct dict, exactly one entry carries
key `k`, and it holds `v`. -/
theorem filter_dictInsert (d : List (Str × Str)) (k v : Str)
    (h : (d.map Prod.fst).Nodup) :
    (dictInsert d k v).filter (fun kv => kv.1 = k) = [(k, v)] := by
  unfold dictInsert
  by_cases hany : d.any (fun kv => kv.1 = k) = true
  · rw [if_pos hany]
    rcases List.any_eq_true.mp hany with ⟨kv0, hkv0, hk0⟩
    simp only [decide_eq_true_eq] at hk0
    clear hany
    induction d with
    | nil => exact absurd hkv0 (by simp)
    | cons a d' ih =>
      rw [List.map_cons, List.nodup_cons] at h
      rw [List.map_cons, List.filter_cons]
      by_cases ha : a.1 = k
      · rw [if_pos (by simp [ha])]
        rw [if_pos (by simp [ha])]
        have hnk : ∀ kv ∈ d', kv.1 ≠ k := by
          intro kv hkv hk2
          exact h.1 (by rw [← ha] at hk2; exact List.mem_map.mpr ⟨kv, hkv, hk2.symm ▸ rfl⟩)
        have hmap : ∀ kv ∈ d'.map (fun kv => if kv.1 = k then (kv.1, v) else kv),
            kv.1 ≠ k := by
          intro kv hkv
          rcases List.mem_map.mp hkv with ⟨kv1, hkv1, rfl⟩
          rw [if_neg (hnk kv1 hkv1)]
          exact hnk kv1 hkv1
        rw [filter_eq_nil_of_no_key _ _ hmap, ha]
      · rw [if_neg (by simp [ha])]
        rcases List.mem_cons.mp hkv0 with rfl | hkv0'
        · exact absurd hk0 ha
        · exact ih h.2 hkv0'
  · rw [if_neg hany]
    rw [List.filter_append]
    rw [filter_eq_nil_of_no_key d k (fun kv hkv hk2 =>
      hany (List.any_eq_true.mpr ⟨kv, hkv, by simp [hk2]⟩))]
    rw [List.nil_append, List.filter_cons]
    rw [if_pos (by simp)]
    rfl

/-- A separator that occurs in the list is found by `splitFirst?`. -/
theorem splitFirst_isSome (sep : Char) (l : Str) (h : sep ∈ l) :
    ∃ a b, splitFirst? sep l = some (a, b) := by
  induction l with
  | nil => exact absurd h (List.not_mem_nil _)
  | cons c rest ih =>
    rw [splitFirst?]
    by_cases hc : c = sep
    · rw [if_pos hc]
      exact ⟨[], rest, rfl⟩
    · rw [if_neg hc]
      obtain ⟨a, b, hab⟩ := ih (by
        rcases List.mem_cons.mp h with h1 | h1
        · exact absurd h1.symm hc
        · exact h1)
      rw [hab]
      exact ⟨c :: a, b, rfl⟩

/-- A string containing a character not in the scheme alphabet is not a
valid scheme candidate. -/
theorem validSchemeCand_mem_bad (c : Char) (s : Str) (hm : c ∈ s)
    (hc : schemeChars.contains c = false) : validSchemeCand s = false := by
  cases s with
  | nil => rfl
  | cons c0 s' =>
    rw [validSchemeCand]
    cases hall : (c0 :: s').all (fun x => schemeChars.contains x) with
    | false => rw [Bool.and_false]
    | true =>
      have h2 := List.all_eq_true.mp hall c hm
      rw [hc] at h2
      exact absurd h2 (by simp)

/-- Facts about the scheme alphabet, closed under `ruLower`. -/
theorem schemeChar_facts : ∀ c ∈ schemeChars,
    schemeChars.contains (ruLower c) = true ∧ ruLower (ruLower c) = ruLower c ∧
    (ruLower c ≠ '?' ∧ ruLower c ≠ '#' ∧ ruLower c ≠ '\t' ∧ ruLower c ≠ '\r' ∧
      ruLower c ≠ '\n') ∧ 0x20 < (ruLower c).toNat ∧
    (ruLower c).isAlpha = c.isAlpha ∧
    (c ≠ '?' ∧ c ≠ '#' ∧ c ≠ '\t' ∧ c ≠ '\r' ∧ c ≠ '\n') ∧ 0x20 < c.toNat ∧
    c ≠ ':' := by
  decide

/-- A clean character is not one of the removed unsafe bytes. -/
theorem notUnsafeBy_cleanChar (c : Char) (h : cleanChar c) : isUnsafeUrlChar c = false := by
  obtain ⟨_, _, h3, h4, h5⟩ := h
  simp [isUnsafeUrlChar, h3, h4, h5]

/-- A non-delimiter character is neither `?` nor `#`. -/
theorem not_delim_facts (c : Char) (h : isNetlocDelim c = false) : c ≠ '?' ∧ c ≠ '#' := by
  constructor <;> intro he <;> subst he <;> revert h <;> decide

/-- The head surviving a `dropWhile` fails the predicate. -/
theorem head_dropWhile_not (p : Char → Bool) (l : Str) (c : Char)
    (h : (l.dropWhile p).head? = some c) : p c = false := by
  induction l with
  | nil => exact absurd h (by simp)
  | cons a l' ih =>
    rw [List.dropWhile_cons] at h
    by_cases hp : p a = true
    · rw [if_pos hp] at h
      exact ih h
    · rw [if_neg hp] at h
      simp only [List.head?_cons, Option.some_inj] at h
      subst h
      exact Bool.eq_false_iff.mpr hp

/-- `headGT32` restricts to a prefix. -/
theorem headGT32_prefix (a t : Str) (h : headGT32 (a ++ t)) : headGT32 a := by
  intro c hc
  cases a with
  | nil => exact absurd hc (by simp)
  | cons x a' =>
    simp only [List.head?_cons, Option.some_inj] at hc
    subst hc
    exact h x (by rw [List.cons_append]; rfl)

/-- The WHATWG strip and the unsafe-byte filter fix a string whose head
is above 0x20 and which carries no unsafe byte. -/
theorem cleanup_id (w : Str) (h1 : ∀ c ∈ w, isUnsafeUrlChar c = false)
    (h2 : headGT32 w) :
    (w.dropWhile (fun c => c.toNat ≤ 0x20)).filter (fun c => !isUnsafeUrlChar c) = w := by
  have hd : w.dropWhile (fun c => c.toNat ≤ 0x20) = w := by
    cases w with
    | nil => rfl
    | cons c r =>
      rw [List.dropWhile_cons, if_neg (by
        have h3 := h2 c rfl
        simp only [decide_eq_true_eq]
        omega)]
  rw [hd]
  exact List.filter_eq_self.mpr (fun c hc => by rw [h1 c hc]; rfl)

/-- Dropping non-delimiters through a `?`-free, `#`-free block stops no
later than the `?`, leaving the `?` and everything after it intact. -/
theorem dropWhile_through (y r : Str) (hy : ∀ c ∈ y, c ≠ '?' ∧ c ≠ '#') :
    ∃ x, (y ++ '?' :: r).dropWhile (fun c => !isNetlocDelim c) = x ++ '?' :: r ∧
      ∀ c ∈ x, c ≠ '?' ∧ c ≠ '#' := by
  induction y with
  | nil =>
    refine ⟨[], ?_, by simp⟩
    rw [List.nil_append, List.dropWhile_cons, if_neg (by decide)]
  | cons c y' ih =>
    by_cases hc : isNetlocDelim c = true
    · refine ⟨c :: y', ?_, hy⟩
      rw [List.cons_append, List.dropWhile_cons, if_neg (by rw [hc]; decide)]
    · obtain ⟨x, hx, hxf⟩ := ih (fun d hd => hy d (List.mem_cons_of_mem _ hd))
      refine ⟨x, ?_, hxf⟩
      rw [List.cons_append, List.dropWhile_cons,
        if_pos (by rw [Bool.eq_false_iff.mpr hc]; rfl), hx]

/-- When the first character is not the separator, the piece before the
separator starts with it. -/
theorem splitFirst_head (sep c : Char) (xs a b : Str)
    (h : splitFirst? sep (c :: xs) = some (a, b)) (hc : c ≠ sep) :
    ∃ a2, a = c :: a2 := by
  obtain ⟨he, _⟩ := splitFirst_eq sep (c :: xs) a b h
  cases a with
  | nil =>
    rw [List.nil_append] at he
    simp only [List.cons.injEq] at he
    exact absurd he.1 hc
  | cons a0 a' =>
    rw [List.cons_append] at he
    simp only [List.cons.injEq] at he
    exact ⟨a', by rw [he.1]⟩

/-- The netloc step on a string whose `?`-free, `#`-free head block is
followed by a literal `?` leaves the `?` and its tail intact. -/
theorem splitNetloc_shape (y r : Str) (hy : ∀ c ∈ y, c ≠ '?' ∧ c ≠ '#') :
    ∃ n x, splitNetloc (y ++ '?' :: r) = (n, x ++ '?' :: r) ∧
      ∀ c ∈ x, c ≠ '?' ∧ c ≠ '#' := by
  unfold splitNetloc
  by_cases h : (y ++ '?' :: r).take 2 = ['/', '/']
  · obtain ⟨t, ht, hmem⟩ : ∃ t, y = '/' :: '/' :: t ∧ ∀ c ∈ t, c ≠ '?' ∧ c ≠ '#' := by
      cases y with
      | nil =>
        rw [List.nil_append, List.take_succ_cons] at h
        exact absurd (List.cons.injEq .. ▸ h).1 (by decide)
      | cons c1 r1 =>
        cases r1 with
        | nil =>
          rw [List.singleton_append, List.take_succ_cons, List.take_succ_cons,
            List.take_zero] at h
          exact absurd (List.cons.injEq .. ▸ h).2 (by
            intro h2
            exact absurd (List.cons.injEq .. ▸ h2).1 (by decide))
        | cons c2 r2 =>
          rw [List.cons_append, List.cons_append, List.take_succ_cons,
            List.take_succ_cons, List.take_zero] at h
          have h1 := (List.cons.injEq .. ▸ h).1
          have h2 := (List.cons.injEq .. ▸ (List.cons.injEq .. ▸ h).2).1
          exact ⟨r2, by rw [h1, h2], fun c hc =>
            hy c (List.mem_cons_of_mem _ (List.mem_cons_of_mem _ hc))⟩
    rw [if_pos h, ht]
    obtain ⟨x, hx, hxf⟩ := dropWhile_through t r hmem
    refine ⟨(t ++ '?' :: r).takeWhile (fun c => !isNetlocDelim c), x, ?_, hxf⟩
    show ((t ++ '?' :: r).takeWhile (fun c => !isNetlocDelim c),
          (t ++ '?' :: r).dropWhile (fun c => !isNetlocDelim c)) = _
    rw [hx]
  · rw [if_neg h]
    exact ⟨[], y, rfl, hy⟩

/-- The fragment step on a `#`-free string is trivial. -/
theorem splitHash_none (s : Str) (hs : '#' ∉ s) : splitHash s = (s, []) := by
  unfold splitHash
  rw [splitFirst_none '#' s hs]

/-- The fragment step splits at the first `#`. -/
theorem splitHash_at (a f : Str) (ha : '#' ∉ a) : splitHash (a ++ '#' :: f) = (a, f) := by
  unfold splitHash
  rw [splitFirst_at '#' a f ha]

/-- The query step splits at the first `?`. -/
theorem splitQuery_at (a q : Str) (ha : '?' ∉ a) : splitQuery (a ++ '?' :: q) = (a, q) := by
  unfold splitQuery
  rw [splitFirst_at '?' a q ha]

/-- The query step on a `?`-free string is trivial. -/
theorem splitQuery_none (s : Str) (hs : '?' ∉ s) : splitQuery s = (s, []) := by
  unfold splitQuery
  rw [splitFirst_none '?' s hs]

/-- Outcomes of the scheme step: either nothing is split off and every
leading `:`-delimited candidate of the input is invalid, or a valid
candidate is split off and lowercased. -/
theorem splitScheme_spec (s : Str) :
    (splitScheme s = ([], s) ∧
      ∀ a b, s = a ++ ':' :: b → ':' ∉ a → validSchemeCand a = false) ∨
    (∃ cand rest, splitFirst? ':' s = some (cand, rest) ∧ validSchemeCand cand = true ∧
      s = cand ++ ':' :: rest ∧ ':' ∉ cand ∧ splitScheme s = (lowerStr cand, rest)) := by
  cases hsp : splitFirst? ':' s with
  | none =>
    left
    refine ⟨by unfold splitScheme; rw [hsp], fun a b hab ha => ?_⟩
    rw [hab, splitFirst_at ':' a b ha] at hsp
    exact absurd hsp (by simp)
  | some pr =>
    obtain ⟨cand, rest⟩ := pr
    by_cases hv : validSchemeCand cand = true
    · right
      obtain ⟨he, hni⟩ := splitFirst_eq ':' s cand rest hsp
      exact ⟨cand, rest, rfl, hv, he, hni, by
        unfold splitScheme
        rw [hsp]
        dsimp only
        rw [if_pos hv]⟩
    · left
      refine ⟨by unfold splitScheme; rw [hsp]; dsimp only; rw [if_neg hv], fun a b hab ha => ?_⟩
      rw [hab, splitFirst_at ':' a b ha] at hsp
      simp only [Option.some_inj, Prod.mk.injEq] at hsp
      rw [← hsp.1] at hv
      exact Bool.eq_false_iff.mpr hv

/-- Outcomes of the netloc step. -/
theorem splitNetloc_spec (s : Str) :
    (splitNetloc s = ([], s) ∧ s.take 2 ≠ ['/', '/']) ∨
    (∃ t, s = '/' :: '/' :: t ∧
      splitNetloc s = (t.takeWhile (fun c => !isNetlocDelim c),
                       t.dropWhile (fun c => !isNetlocDelim c))) := by
  by_cases h : s.take 2 = ['/', '/']
  · right
    obtain ⟨t, rfl⟩ : ∃ t, s = '/' :: '/' :: t := by
      cases s with
      | nil => exact absurd h (by decide)
      | cons c1 r1 =>
        cases r1 with
        | nil => simp at h
        | cons c2 r2 =>
          rw [List.take_succ_cons, List.take_succ_cons, List.take_zero] at h
          simp only [List.cons.injEq] at h
          exact ⟨r2, by rw [h.1, h.2.1]⟩
    exact ⟨t, rfl, by unfold splitNetloc; rw [if_pos h]; rfl⟩
  · left
    exact ⟨by unfold splitNetloc; rw [if_neg h], h⟩

/-- Outcomes of the fragment step. -/
theorem splitHash_spec (s : Str) :
    (splitHash s = (s, []) ∧ '#' ∉ s) ∨
    (∃ a b, s = a ++ '#' :: b ∧ '#' ∉ a ∧ splitHash s = (a, b)) := by
  cases hsp : splitFirst? '#' s with
  | none =>
    left
    refine ⟨by unfold splitHash; rw [hsp], fun hm => ?_⟩
    obtain ⟨a, b, hab⟩ := splitFirst_isSome '#' s hm
    rw [hab] at hsp
    exact absurd hsp (by simp)
  | some pr =>
    obtain ⟨a, b⟩ := pr
    obtain ⟨he, hni⟩ := splitFirst_eq '#' s a b hsp
    exact Or.inr ⟨a, b, he, hni, by unfold splitHash; rw [hsp]⟩

/-- Outcomes of the query step. -/
theorem splitQuery_spec (s : Str) :
    (splitQuery s = (s, []) ∧ '?' ∉ s) ∨
    (∃ a b, s = a ++ '?' :: b ∧ '?' ∉ a ∧ splitQuery s = (a, b)) := by
  cases hsp : splitFirst? '?' s with
  | none =>
    left
    refine ⟨by unfold splitQuery; rw [hsp], fun hm => ?_⟩
    obtain ⟨a, b, hab⟩ := splitFirst_isSome '?' s hm
    rw [hab] at hsp
    exact absurd hsp (by simp)
  | some pr =>
    obtain ⟨a, b⟩ := pr
    obtain ⟨he, hni⟩ := splitFirst_eq '?' s a b hsp
    exact Or.inr ⟨a, b, he, hni, by unfold splitQuery; rw [hsp]⟩

/-- A character above 0x20 is not an unsafe byte. -/
theorem notUnsafeBy_gt32 (c : Char) (h : 0x20 < c.toNat) : isUnsafeUrlChar c = false := by
  unfold isUnsafeUrlChar
  have h1 : c ≠ '\t' := fun he => by subst he; exact absurd h (by decide)
  have h2 : c ≠ '\r' := fun he => by subst he; exact absurd h (by decide)
  have h3 : c ≠ '\n' := fun he => by subst he; exact absurd h (by decide)
  simp [h1, h2, h3]

/-- The cleanup pass leaves a string whose head is above 0x20. -/
theorem headGT32_cleanupOut (u : Str) :
    headGT32 ((u.dropWhile (fun c => c.toNat ≤ 0x20)).filter (fun c => !isUnsafeUrlChar c)) := by
  induction u with
  | nil => intro c hc; exact absurd hc (by simp)
  | cons a u' ih =>
    rw [List.dropWhile_cons]
    by_cases ha : a.toNat ≤ 0x20
    · rw [if_pos (by simpa using ha)]
      exact ih
    · rw [if_neg (by simpa using ha)]
      rw [List.filter_cons, if_pos (by rw [notUnsafeBy_gt32 a (by omega)]; rfl)]
      intro c hc
      simp only [List.head?_cons, Option.some_inj] at hc
      subst hc
      omega

/-- `urlsplitM` written with explicit stage projections. -/
theorem urlsplitM_eq (u : Str) :
    urlsplitM u =
      { scheme :=
          (splitScheme ((u.dropWhile (fun c => c.toNat ≤ 0x20)).filter
            (fun c => !isUnsafeUrlChar c))).1,
        netloc :=
          (splitNetloc (splitScheme ((u.dropWhile (fun c => c.toNat ≤ 0x20)).filter
            (fun c => !isUnsafeUrlChar c))).2).1,
        path :=
          (splitQuery (splitHash (splitNetloc (splitScheme ((u.dropWhile
            (fun c => c.toNat ≤ 0x20)).filter (fun c => !isUnsafeUrlChar c))).2).2).1).1,
        query :=
          (splitQuery (splitHash (splitNetloc (splitScheme ((u.dropWhile
            (fun c => c.toNat ≤ 0x20)).filter (fun c => !isUnsafeUrlChar c))).2).2).1).2,
        fragment :=
          (splitHash (splitNetloc (splitScheme ((u.dropWhile
            (fun c => c.toNat ≤ 0x20)).filter (fun c => !isUnsafeUrlChar c))).2).2).2 } := by
  rfl

/-- Re-splitting a cleaned-up string whose scheme step exposes a body of
the shape `y ++ "?" ++ query ++ fragment-tail` recovers exactly that
query. -/
theorem urlsplitM_query_eq (w σ y q f' : Str)
    (hw1 : (w.dropWhile (fun c => c.toNat ≤ 0x20)).filter (fun c => !isUnsafeUrlChar c) = w)
    (hw2 : splitScheme w = (σ, y ++ '?' :: (q ++ f')))
    (hy : ∀ c ∈ y, c ≠ '?' ∧ c ≠ '#')
    (hq : ∀ c ∈ q, c ≠ '?' ∧ c ≠ '#')
    (hf : f' = [] ∨ ∃ f, f' = '#' :: f) :
    (urlsplitM w).query = q := by
  rw [urlsplitM_eq]
  dsimp only
  rw [hw1, hw2]
  dsimp only
  obtain ⟨n, x, h2, hx⟩ := splitNetloc_shape y (q ++ f') hy
  rw [h2]
  dsimp only
  have hxq : '#' ∉ x ++ '?' :: q := by
    intro hm
    rcases List.mem_append.mp hm with hm | hm
    · exact (hx _ hm).2 rfl
    · rcases List.mem_cons.mp hm with hm | hm
      · exact absurd hm (by decide)
      · exact (hq _ hm).2 rfl
  rcases hf with rfl | ⟨f, rfl⟩
  · rw [List.append_nil, splitHash_none _ hxq]
    dsimp only
    rw [splitQuery_at x q (fun hm => (hx _ hm).1 rfl)]
  · rw [show x ++ '?' :: (q ++ '#' :: f) = (x ++ '?' :: q) ++ '#' :: f by
      rw [List.append_assoc]; rfl]
    rw [splitHash_at _ f hxq]
    dsimp only
    rw [splitQuery_at x q (fun hm => (hx _ hm).1 rfl)]

/-- A character that is not an unsafe byte differs from tab, CR and LF. -/
theorem not_unsafe_facts (c : Char) (h : isUnsafeUrlChar c = false) :
    c ≠ '\t' ∧ c ≠ '\r' ∧ c ≠ '\n' := by
  refine ⟨?_, ?_, ?_⟩ <;> intro he <;> subst he <;> revert h <;> decide

/-- Netloc delimiters sit above 0x20. -/
theorem delim_gt32 (c : Char) (h : isNetlocDelim c = true) : 0x20 < c.toNat := by
  unfold isNetlocDelim at h
  simp only [Bool.or_eq_true, decide_eq_true_eq] at h
  rcases h with (rfl | rfl) | rfl <;> decide

/-- Netloc delimiters are outside the scheme alphabet. -/
theorem delim_not_scheme (c : Char) (h : isNetlocDelim c = true) :
    schemeChars.contains c = false := by
  unfold isNetlocDelim at h
  simp only [Bool.or_eq_true, decide_eq_true_eq] at h
  rcases h with (rfl | rfl) | rfl <;> decide

/-- The path produced by the fragment and query steps is a prefix. -/
theorem path_prefix_s2 (s2 : Str) :
    ∃ Z, s2 = (splitQuery (splitHash s2).1).1 ++ Z := by
  rcases splitHash_spec s2 with ⟨h3, _⟩ | ⟨a3, b3, hd3, _, h3⟩ <;> rw [h3] <;> dsimp only
  · rcases splitQuery_spec s2 with ⟨h4, _⟩ | ⟨a4, b4, hd4, _, h4⟩ <;> rw [h4] <;> dsimp only
    · exact ⟨[], (List.append_nil _).symm⟩
    · exact ⟨'?' :: b4, hd4⟩
  · rcases splitQuery_spec a3 with ⟨h4, _⟩ | ⟨a4, b4, hd4, _, h4⟩ <;> rw [h4] <;> dsimp only
    · exact ⟨'#' :: b3, hd3⟩
    · exact ⟨'?' :: b4 ++ '#' :: b3, by rw [hd3, hd4, List.append_assoc]⟩

/-- The path holds neither `?` nor `#`. -/
theorem path_no_qmark_hash (s2 : Str) :
    '?' ∉ (splitQuery (splitHash s2).1).1 ∧ '#' ∉ (splitQuery (splitHash s2).1).1 := by
  rcases splitHash_spec s2 with ⟨h3, hn3⟩ | ⟨a3, b3, hd3, hn3, h3⟩ <;> rw [h3] <;> dsimp only
  · rcases splitQuery_spec s2 with ⟨h4, hn4⟩ | ⟨a4, b4, hd4, hn4, h4⟩ <;>
      rw [h4] <;> dsimp only
    · exact ⟨hn4, hn3⟩
    · exact ⟨hn4, fun hm => hn3 (by rw [hd4]; exact List.mem_append_left _ hm)⟩
  · rcases splitQuery_spec a3 with ⟨h4, hn4⟩ | ⟨a4, b4, hd4, hn4, h4⟩ <;>
      rw [h4] <;> dsimp only
    · exact ⟨hn4, hn3⟩
    · exact ⟨hn4, fun hm => hn3 (by rw [hd4]; exact List.mem_append_left _ hm)⟩

/-- Path and fragment characters come from the input of the fragment
step. -/
theorem mem_split_tail (s2 : Str) :
    (∀ c ∈ (splitQuery (splitHash s2).1).1, c ∈ s2) ∧
    (∀ c ∈ (splitHash s2).2, c ∈ s2) := by
  constructor
  · obtain ⟨Z, hZ⟩ := path_prefix_s2 s2
    intro c hc
    rw [hZ]
    exact List.mem_append_left _ hc
  · rcases splitHash_spec s2 with ⟨h3, _⟩ | ⟨a3, b3, hd3, _, h3⟩ <;> rw [h3] <;> dsimp only
    · intro c hc
      exact absurd hc (List.not_mem_nil c)
    · intro c hc
      rw [hd3]
      exact List.mem_append_right _ (List.mem_cons_of_mem _ hc)

/-- Cleanliness of the netloc, path and fragment produced from a string
free of unsafe bytes. -/
theorem tail_clean (s1 : Str) (hmem : ∀ c ∈ s1, isUnsafeUrlChar c = false) :
    (∀ c ∈ (splitNetloc s1).1, isNetlocDelim c = false ∧ isUnsafeUrlChar c = false) ∧
    clean (splitQuery (splitHash (splitNetloc s1).2).1).1 ∧
    (∀ c ∈ (splitHash (splitNetloc s1).2).2, isUnsafeUrlChar c = false) := by
  have main : ∀ s2 : Str, (∀ c ∈ s2, isUnsafeUrlChar c = false) →
      clean (splitQuery (splitHash s2).1).1 ∧
      (∀ c ∈ (splitHash s2).2, isUnsafeUrlChar c = false) := by
    intro s2 hm2
    obtain ⟨hpm, hfm⟩ := mem_split_tail s2
    obtain ⟨hq, hh⟩ := path_no_qmark_hash s2
    refine ⟨?_, fun c hc => hm2 c (hfm c hc)⟩
    intro c hc
    obtain ⟨u1, u2, u3⟩ := not_unsafe_facts c (hm2 c (hpm c hc))
    exact ⟨fun he => hq (he ▸ hc), fun he => hh (he ▸ hc), u1, u2, u3⟩
  rcases splitNetloc_spec s1 with ⟨h2, _⟩ | ⟨t, rfl, h2⟩ <;> rw [h2] <;> dsimp only
  · exact ⟨fun c hc => absurd hc (List.not_mem_nil c), main s1 hmem⟩
  · have hmt : ∀ c ∈ t, isUnsafeUrlChar c = false := fun c hc =>
      hmem c (List.mem_cons_of_mem _ (List.mem_cons_of_mem _ hc))
    refine ⟨?_, main _ (fun c hc => hmt c ((List.dropWhile_sublist _).subset hc))⟩
    intro c hc
    have hd := List.mem_takeWhile_imp hc
    refine ⟨by simpa using hd, hmt c ((List.takeWhile_sublist _).subset hc)⟩

/-- When the netloc is empty, the path inherits the head bound and the
no-valid-scheme-prefix property of the input. -/
theorem tail_head_colon (s1 : Str) (hh : headGT32 s1)
    (hcol : ∀ a b, s1 = a ++ ':' :: b → ':' ∉ a → validSchemeCand a = false)
    (hn : (splitNetloc s1).1 = []) :
    headGT32 (splitQuery (splitHash (splitNetloc s1).2).1).1 ∧
    (∀ a b, (splitQuery (splitHash (splitNetloc s1).2).1).1 = a ++ ':' :: b → ':' ∉ a →
      validSchemeCand a = false) := by
  rcases splitNetloc_spec s1 with ⟨h2, _⟩ | ⟨t, rfl, h2⟩ <;> rw [h2] <;> dsimp only
  · obtain ⟨Z, hZ⟩ := path_prefix_s2 s1
    constructor
    · exact headGT32_prefix _ Z (by rw [← hZ]; exact hh)
    · intro a b hab hna
      exact hcol a (b ++ Z) (by rw [hZ, hab, List.append_assoc, List.cons_append]) hna
  · have hH : ∀ c, ((t.dropWhile (fun c => !isNetlocDelim c)).head? = some c) →
        isNetlocDelim c = true := by
      intro c hc
      have hd := head_dropWhile_not _ t c hc
      simpa using hd
    obtain ⟨Z, hZ⟩ := path_prefix_s2 (t.dropWhile (fun c => !isNetlocDelim c))
    constructor
    · refine headGT32_prefix _ Z (by rw [← hZ]; intro c hc; exact delim_gt32 c (hH c hc))
    · intro a b hab hna
      cases a with
      | nil =>
        rw [List.nil_append] at hab
        have hcolon := hH ':' (by rw [hZ, hab]; rfl)
        exact absurd hcolon (by decide)
      | cons a0 a' =>
        have ha0 := hH a0 (by rw [hZ, hab]; rfl)
        exact validSchemeCand_mem_bad a0 _ (List.mem_cons_self ..) (delim_not_scheme a0 ha0)

/-- Every `urlsplit` result satisfies the re-splitting invariant. -/
theorem urlInv_split (u : Str) : UrlInv (urlsplitM u) := by
  have hF0 : ∀ c ∈ (u.dropWhile (fun c => c.toNat ≤ 0x20)).filter
      (fun c => !isUnsafeUrlChar c), isUnsafeUrlChar c = false := by
    intro c hc
    have h := (List.mem_filter.mp hc).2
    simpa using h
  have hF0b := headGT32_cleanupOut u
  rw [urlsplitM_eq]
  unfold UrlInv
  dsimp only
  set s0 := (u.dropWhile (fun c => c.toNat ≤ 0x20)).filter (fun c => !isUnsafeUrlChar c)
    with hs0
  rcases splitScheme_spec s0 with ⟨h1, hInv⟩ | ⟨cand, rest, hsp, hv, hdec, hni, h1⟩
  · rw [h1]
    dsimp only
    obtain ⟨hnet, hpath, hfrag⟩ := tail_clean s0 hF0
    refine ⟨fun c hc => absurd hc (List.not_mem_nil c), hpath, hnet, hfrag,
      fun c hc => absurd hc (List.not_mem_nil c), Or.inl rfl, ?_, ?_⟩
    · intro _ hn
      exact (tail_head_colon s0 hF0b hInv hn).1
    · intro _ hn
      exact (tail_head_colon s0 hF0b hInv hn).2
  · rw [h1]
    dsimp only
    obtain ⟨c0, cs, rfl⟩ : ∃ c0 cs, cand = c0 :: cs := by
      cases cand with
      | nil => exact absurd hv (by decide)
      | cons c0 cs => exact ⟨c0, cs, rfl⟩
    have hvv : c0.isAlpha = true ∧
        ((c0 :: cs).all (fun x => schemeChars.contains x)) = true := by
      rw [validSchemeCand] at hv
      simp only [Bool.and_eq_true] at hv
      exact hv
    have hmemS : ∀ c ∈ c0 :: cs, c ∈ schemeChars := fun c hc =>
      List.mem_of_elem_eq_true (List.all_eq_true.mp hvv.2 c hc)
    have hrest : ∀ c ∈ rest, isUnsafeUrlChar c = false := by
      intro c hc
      exact hF0 c (by rw [hdec]; exact List.mem_append_right _ (List.mem_cons_of_mem _ hc))
    obtain ⟨hnet, hpath, hfrag⟩ := tail_clean rest hrest
    have hschemeNe : lowerStr (c0 :: cs) ≠ [] := by simp [lowerStr]
    refine ⟨?_, hpath, hnet, hfrag, ?_, Or.inr ⟨?_, ?_⟩, ?_, ?_⟩
    · intro c hc
      rw [lowerStr] at hc
      obtain ⟨c1, hc1, rfl⟩ := List.mem_map.mp hc
      exact (schemeChar_facts c1 (hmemS c1 hc1)).2.2.1
    · intro c hc
      rw [lowerStr] at hc
      obtain ⟨c1, hc1, rfl⟩ := List.mem_map.mp hc
      exact (schemeChar_facts c1 (hmemS c1 hc1)).2.2.2.1
    · rw [lowerStr, List.map_cons, validSchemeCand]
      simp only [Bool.and_eq_true]
      refine ⟨?_, ?_⟩
      · rw [(schemeChar_facts c0 (hmemS c0 (List.mem_cons_self ..))).2.2.2.2.1]
        exact hvv.1
      · refine List.all_eq_true.mpr ?_
        intro x hx
        rw [← List.map_cons] at hx
        obtain ⟨c1, hc1, rfl⟩ := List.mem_map.mp hx
        exact (schemeChar_facts c1 (hmemS c1 hc1)).1
    · rw [lowerStr, lowerStr, List.map_map]
      exact List.map_congr_left (fun c1 hc1 => (schemeChar_facts c1 (hmemS c1 hc1)).2.1)
    · intro habs
      exact absurd habs hschemeNe
    · intro habs
      exact absurd habs hschemeNe

/-- Push an optional fragment suffix into an append. -/
theorem frag_append (X g : Str) :
    (if g ≠ [] then X ++ '#' :: g else X) = X ++ (if g = [] then [] else '#' :: g) := by
  by_cases hg : g = []
  · rw [if_neg (fun hx => hx hg), if_pos hg, List.append_nil]
  · rw [if_pos hg, if_neg hg]

/-- Characters of a valid scheme candidate lie in the scheme alphabet. -/
theorem valid_scheme_chars (s : Str) (hv : validSchemeCand s = true) :
    ∀ c ∈ s, schemeChars.contains c = true := by
  cases s with
  | nil => exact fun c hc => absurd hc (List.not_mem_nil c)
  | cons c0 cs =>
    rw [validSchemeCand] at hv
    simp only [Bool.and_eq_true] at hv
    exact fun c hc => List.all_eq_true.mp hv.2 c hc

/-- No prefix of a slash-headed string is a valid scheme candidate. -/
theorem col_head_slash (t a b : Str) (h : '/' :: t = a ++ ':' :: b) :
    validSchemeCand a = false := by
  cases a with
  | nil =>
    rw [List.nil_append] at h
    simp only [List.cons.injEq] at h
    exact absurd h.1 (by decide)
  | cons a0 a' =>
    rw [List.cons_append] at h
    simp only [List.cons.injEq] at h
    refine validSchemeCand_mem_bad a0 _ (List.mem_cons_self ..) ?_
    rw [← h.1]
    decide

/-- Characters of the path-adjustment step come from the path or are `/`. -/
theorem padj_mem (pa : Str) (c : Char)
    (hc : c ∈ (if pa ≠ [] && pa.take 1 ≠ ['/'] then '/' :: pa else pa)) :
    c = '/' ∨ c ∈ pa := by
  split at hc
  · rcases List.mem_cons.mp hc with rfl | hc
    · exact Or.inl rfl
    · exact Or.inr hc
  · exact Or.inr hc

/-- Characters of the reassembled `//netloc/path` block. -/
theorem url1_slash_mem (nl pa : Str) (c : Char)
    (hc : c ∈ ('/' :: '/' :: nl ++ (if pa ≠ [] && pa.take 1 ≠ ['/'] then '/' :: pa else pa))) :
    c = '/' ∨ c ∈ nl ∨ c ∈ pa := by
  rcases List.mem_cons.mp hc with rfl | hc
  · exact Or.inl rfl
  · rcases List.mem_cons.mp hc with rfl | hc
    · exact Or.inl rfl
    · rcases List.mem_append.mp hc with hc | hc
      · exact Or.inr (Or.inl hc)
      · rcases padj_mem pa c hc with h | h
        · exact Or.inl h
        · exact Or.inr (Or.inr h)

/-- Re-splitting an unsplit URL with empty scheme recovers the query. -/
theorem resplit_noscheme_case (y q F : Str)
    (hy : ∀ c ∈ y, c ≠ '?' ∧ c ≠ '#')
    (hyU : ∀ c ∈ y, isUnsafeUrlChar c = false)
    (hyHead : headGT32 y)
    (hyCol : ∀ a b, y = a ++ ':' :: b → ':' ∉ a → validSchemeCand a = false)
    (hqc : clean q)
    (hF : F = [] ∨ ∃ f, F = '#' :: f ∧ ∀ c ∈ f, isUnsafeUrlChar c = false) :
    (urlsplitM ((y ++ '?' :: q) ++ F)).query = q := by
  have hshape : (y ++ '?' :: q) ++ F = y ++ '?' :: (q ++ F) := by
    rw [List.append_assoc, List.cons_append]
  rw [hshape]
  set w := y ++ '?' :: (q ++ F) with hwdef
  have hFU : ∀ c ∈ F, isUnsafeUrlChar c = false := by
    rcases hF with rfl | ⟨f, rfl, hfU⟩
    · exact fun c hc => absurd hc (List.not_mem_nil c)
    · intro c hc
      rcases List.mem_cons.mp hc with rfl | hc
      · decide
      · exact hfU c hc
  have hwU : ∀ c ∈ w, isUnsafeUrlChar c = false := by
    intro c hc
    rw [hwdef] at hc
    rcases List.mem_append.mp hc with hc | hc
    · exact hyU c hc
    · rcases List.mem_cons.mp hc with rfl | hc
      · decide
      · rcases List.mem_append.mp hc with hc | hc
        · exact notUnsafeBy_cleanChar c (hqc c hc)
        · exact hFU c hc
  have hwHead : headGT32 w := by
    cases y with
    | nil =>
      intro c hc
      rw [hwdef] at hc
      simp only [List.nil_append, List.head?_cons, Option.some_inj] at hc
      subst hc
      decide
    | cons y0 y' =>
      intro c hc
      rw [hwdef] at hc
      simp only [List.cons_append, List.head?_cons, Option.some_inj] at hc
      subst hc
      exact hyHead y0 rfl
  have hw2 : splitScheme w = ([], w) := by
    rcases splitScheme_spec w with ⟨h1, _⟩ | ⟨cand, rest, hsp, hv, hdecomp, hni, h1⟩
    · exact h1
    · exfalso
      by_cases hcp : ':' ∈ y
      · obtain ⟨a, b, hab⟩ := splitFirst_isSome ':' y hcp
        obtain ⟨hdp, hnip⟩ := splitFirst_eq ':' y a b hab
        have hwd2 : w = a ++ ':' :: (b ++ '?' :: (q ++ F)) := by
          rw [hwdef, hdp, List.append_assoc, List.cons_append]
        rw [hwd2, splitFirst_at ':' a _ hnip] at hsp
        simp only [Option.some_inj, Prod.mk.injEq] at hsp
        rw [← hsp.1] at hv
        rw [hyCol a b hdp hnip] at hv
        exact absurd hv (by decide)
      · rw [hwdef, splitFirst_shift ':' y ('?' :: (q ++ F)) hcp] at hsp
        cases hin : splitFirst? ':' ('?' :: (q ++ F)) with
        | none =>
          rw [hin] at hsp
          exact absurd hsp (by simp)
        | some pr =>
          obtain ⟨x, y2⟩ := pr
          rw [hin] at hsp
          dsimp only at hsp
          obtain ⟨x2, hx2⟩ := splitFirst_head ':' '?' (q ++ F) x y2 hin (by decide)
          simp only [Option.some_inj, Prod.mk.injEq] at hsp
          have hqin : '?' ∈ cand := by
            rw [← hsp.1, hx2]
            exact List.mem_append_right _ (List.mem_cons_self ..)
          rw [validSchemeCand_mem_bad '?' cand hqin (by decide)] at hv
          exact absurd hv (by decide)
  refine urlsplitM_query_eq w [] y q F (cleanup_id w hwU hwHead)
    (by rw [hw2, hwdef]) hy (fun c hc => ⟨(hqc c hc).1, (hqc c hc).2.1⟩) ?_
  rcases hF with rfl | ⟨f, rfl, _⟩
  · exact Or.inl rfl
  · exact Or.inr ⟨f, rfl⟩

/-- Re-splitting an unsplit URL with a valid lowercase scheme recovers
the query. -/
theorem resplit_scheme_case (sch y q F : Str)
    (hvS : validSchemeCand sch = true) (hlow : lowerStr sch = sch)
    (hy : ∀ c ∈ y, c ≠ '?' ∧ c ≠ '#')
    (hyU : ∀ c ∈ y, isUnsafeUrlChar c = false)
    (hqc : clean q)
    (hF : F = [] ∨ ∃ f, F = '#' :: f ∧ ∀ c ∈ f, isUnsafeUrlChar c = false) :
    (urlsplitM (((sch ++ ':' :: y) ++ '?' :: q) ++ F)).query = q := by
  have hmemS := valid_scheme_chars sch hvS
  have hni : ':' ∉ sch := fun hm => absurd (hmemS ':' hm) (by decide)
  obtain ⟨s0, ss, rfl⟩ : ∃ s0 ss, sch = s0 :: ss := by
    cases sch with
    | nil => exact absurd hvS (by decide)
    | cons s0 ss => exact ⟨s0, ss, rfl⟩
  have hshape : (((s0 :: ss) ++ ':' :: y) ++ '?' :: q) ++ F =
      (s0 :: ss) ++ ':' :: (y ++ '?' :: (q ++ F)) := by
    simp only [List.append_assoc, List.cons_append]
  rw [hshape]
  set w := (s0 :: ss) ++ ':' :: (y ++ '?' :: (q ++ F)) with hwdef
  have hschF : ∀ c ∈ s0 :: ss, 0x20 < c.toNat ∧ isUnsafeUrlChar c = false := by
    intro c hc
    have h2 := schemeChar_facts c (List.mem_of_elem_eq_true (hmemS c hc))
    refine ⟨h2.2.2.2.2.2.2.1, ?_⟩
    obtain ⟨_, _, u1, u2, u3⟩ := h2.2.2.2.2.2.1
    simp [isUnsafeUrlChar, u1, u2, u3]
  have hFU : ∀ c ∈ F, isUnsafeUrlChar c = false := by
    rcases hF with rfl | ⟨f, rfl, hfU⟩
    · exact fun c hc => absurd hc (List.not_mem_nil c)
    · intro c hc
      rcases List.mem_cons.mp hc with rfl | hc
      · decide
      · exact hfU c hc
  have hwU : ∀ c ∈ w, isUnsafeUrlChar c = false := by
    intro c hc
    rw [hwdef] at hc
    rcases List.mem_append.mp hc with hc | hc
    · exact (hschF c hc).2
    · rcases List.mem_cons.mp hc with rfl | hc
      · decide
      · rcases List.mem_append.mp hc with hc | hc
        · exact hyU c hc
        · rcases List.mem_cons.mp hc with rfl | hc
          · decide
          · rcases List.mem_append.mp hc with hc | hc
            · exact notUnsafeBy_cleanChar c (hqc c hc)
            · exact hFU c hc
  have hwHead : headGT32 w := by
    intro c hc
    rw [hwdef] at hc
    simp only [List.cons_append, List.head?_cons, Option.some_inj] at hc
    subst hc
    exact (hschF s0 (List.mem_cons_self ..)).1
  have hw2 : splitScheme w = (s0 :: ss, y ++ '?' :: (q ++ F)) := by
    rw [hwdef]
    unfold splitScheme
    rw [splitFirst_at ':' (s0 :: ss) _ hni]
    dsimp only
    rw [if_pos hvS, hlow]
  refine urlsplitM_query_eq w (s0 :: ss) y q F (cleanup_id w hwU hwHead)
    hw2 hy (fun c hc => ⟨(hqc c hc).1, (hqc c hc).2.1⟩) ?_
  rcases hF with rfl | ⟨f, rfl, _⟩
  · exact Or.inl rfl
  · exact Or.inr ⟨f, rfl⟩

/-- Re-splitting the reassembled URL recovers the query, for every
combination of scheme presence and netloc-marker condition. -/
theorem resplit_cases (sch nl pa q F : Str) (C : Prop) [Decidable C]
    (hCnl : nl ≠ [] → C)
    (hschOK : sch = [] ∨ (validSchemeCand sch = true ∧ lowerStr sch = sch))
    (hnl : ∀ c ∈ nl, isNetlocDelim c = false ∧ isUnsafeUrlChar c = false)
    (hpa : clean pa)
    (hqc : clean q)
    (hHead : sch = [] → nl = [] → headGT32 pa)
    (hCol : sch = [] → nl = [] →
      ∀ a b, pa = a ++ ':' :: b → ':' ∉ a → validSchemeCand a = false)
    (hF : F = [] ∨ ∃ f, F = '#' :: f ∧ ∀ c ∈ f, isUnsafeUrlChar c = false) :
    (urlsplitM (((if sch ≠ [] then
        sch ++ ':' :: (if C then
          '/' :: '/' :: nl ++ (if pa ≠ [] && pa.take 1 ≠ ['/'] then '/' :: pa else pa)
        else pa)
      else
        (if C then
          '/' :: '/' :: nl ++ (if pa ≠ [] && pa.take 1 ≠ ['/'] then '/' :: pa else pa)
        else pa)) ++ '?' :: q) ++ F)).query = q := by
  have hyA : ∀ c ∈ ('/' :: '/' :: nl ++
      (if pa ≠ [] && pa.take 1 ≠ ['/'] then '/' :: pa else pa)),
      (c ≠ '?' ∧ c ≠ '#') ∧ isUnsafeUrlChar c = false := by
    intro c hc
    rcases url1_slash_mem nl pa c hc with rfl | h | h
    · exact ⟨⟨by decide, by decide⟩, by decide⟩
    · exact ⟨not_delim_facts c (hnl c h).1, (hnl c h).2⟩
    · exact ⟨⟨(hpa c h).1, (hpa c h).2.1⟩, notUnsafeBy_cleanChar c (hpa c h)⟩
  by_cases hsch : sch = []
  · rw [if_neg (fun hx => hx hsch)]
    by_cases hC : C
    · rw [if_pos hC]
      refine resplit_noscheme_case _ q F (fun c hc => (hyA c hc).1)
        (fun c hc => (hyA c hc).2) ?_ ?_ hqc hF
      · intro c hc
        simp only [List.cons_append, List.head?_cons, Option.some_inj] at hc
        subst hc
        decide
      · intro a b hab hna
        exact col_head_slash _ a b hab
    · rw [if_neg hC]
      have hn : nl = [] := by
        by_contra hnn
        exact hC (hCnl hnn)
      exact resplit_noscheme_case pa q F (fun c hc => ⟨(hpa c hc).1, (hpa c hc).2.1⟩)
        (fun c hc => notUnsafeBy_cleanChar c (hpa c hc)) (hHead hsch hn) (hCol hsch hn) hqc hF
  · rw [if_pos hsch]
    rcases hschOK with h | ⟨hvS, hlow⟩
    · exact absurd h hsch
    · by_cases hC : C
      · rw [if_pos hC]
        exact resplit_scheme_case sch _ q F hvS hlow (fun c hc => (hyA c hc).1)
          (fun c hc => (hyA c hc).2) hqc hF
      · rw [if_neg hC]
        exact resplit_scheme_case sch pa q F hvS hlow
          (fun c hc => ⟨(hpa c hc).1, (hpa c hc).2.1⟩)
          (fun c hc => notUnsafeBy_cleanChar c (hpa c hc)) hqc hF

/-- After replacing the query of a split result with a clean nonempty
string, unsplitting and re-splitting recovers exactly that query. -/
theorem urlsplit_unsplit_query (p : UrlParts) (q' : Str) (hp : UrlInv p)
    (hq : clean q') (hqne : q' ≠ []) :
    (urlsplitM (urlunsplitM { p with query := q' })).query = q' := by
  obtain ⟨hsc, hpa, hnl, hfr, hsg, hI1, hI5, hI7⟩ := hp
  unfold urlunsplitM
  dsimp only
  rw [frag_append, if_pos hqne]
  refine resplit_cases p.scheme p.netloc p.path q' _ _ ?_ hI1 hnl hpa hq hI5 hI7 ?_
  · intro hn
    simp [hn]
  · by_cases hf : p.fragment = []
    · rw [if_pos hf]
      exact Or.inl rfl
    · rw [if_neg hf]
      exact Or.inr ⟨p.fragment, rfl, hfr⟩

/-- Characters of `"&".join` come from the fields or are `&`. -/
theorem mem_joinAmp (fs : List Str) (c : Char) (hc : c ∈ joinAmp fs) :
    c = '&' ∨ ∃ f ∈ fs, c ∈ f := by
  induction fs with
  | nil => exact absurd hc (List.not_mem_nil c)
  | cons f rest ih =>
    cases rest with
    | nil =>
      rw [show joinAmp [f] = f from rfl] at hc
      exact Or.inr ⟨f, List.mem_cons_self .., hc⟩
    | cons g rest2 =>
      rw [show joinAmp (f :: g :: rest2) = f ++ '&' :: joinAmp (g :: rest2) from rfl] at hc
      rcases List.mem_append.mp hc with h | h
      · exact Or.inr ⟨f, List.mem_cons_self .., h⟩
      · rcases List.mem_cons.mp h with rfl | h
        · exact Or.inl rfl
        · rcases ih h with h2 | ⟨f2, hf2, hcf2⟩
          · exact Or.inl h2
          · exact Or.inr ⟨f2, List.mem_cons_of_mem _ hf2, hcf2⟩

/-- `urlencode` output never holds `?`, `#`, tab, CR or LF. -/
theorem urlencode_clean (d : List (Str × Str)) : clean (urlencodePairs d) := by
  intro c hc
  unfold urlencodePairs at hc
  rcases mem_joinAmp _ c hc with rfl | ⟨f, hf, hcf⟩
  · exact ⟨by decide, by decide, by decide, by decide, by decide⟩
  · obtain ⟨kv, _, rfl⟩ := List.mem_map.mp hf
    rcases List.mem_append.mp hcf with h | h
    · exact quotePlus_clean _ c h
    · rcases List.mem_cons.mp h with rfl | h
      · exact ⟨by decide, by decide, by decide, by decide, by decide⟩
      · exact quotePlus_clean _ c h

/-- `"&".join` of a nonempty first field is nonempty. -/
theorem joinAmp_cons_ne (f : Str) (fs : List Str) (hf : f ≠ []) : joinAmp (f :: fs) ≠ [] := by
  cases fs with
  | nil => exact hf
  | cons g rest =>
    intro h
    rw [show joinAmp (f :: g :: rest) = f ++ '&' :: joinAmp (g :: rest) from rfl] at h
    rcases List.append_eq_nil.mp h with ⟨_, h2⟩
    exact List.noConfusion h2

/-- `urlencode` of a nonempty dict is nonempty. -/
theorem urlencodePairs_ne_nil (d : List (Str × Str)) (hd : d ≠ []) :
    urlencodePairs d ≠ [] := by
  cases d with
  | nil => exact absurd rfl hd
  | cons kv rest =>
    unfold urlencodePairs
    rw [List.map_cons]
    refine joinAmp_cons_ne _ _ ?_
    intro h
    rcases List.append_eq_nil.mp h with ⟨_, h2⟩
    exact List.noConfusion h2

/-- `d[k] = v` never empties a dict. -/
theorem dictInsert_ne_nil (d : List (Str × Str)) (k v : Str) : dictInsert d k v ≠ [] := by
  unfold dictInsert
  split
  · next hany =>
    intro h
    rcases List.any_eq_true.mp hany with ⟨kv, hkv, _⟩
    rw [List.map_eq_nil_iff] at h
    subst h
    exact absurd hkv (List.not_mem_nil kv)
  · intro h
    rcases List.append_eq_nil.mp h with ⟨_, h2⟩
    exact List.noConfusion h2

/-- Claim C7: query-parameter setting is last-write-wins and
duplicate-free.  For EVERY url string and key, after setting the key
twice (values `v1` then `v2`), parsing the query of the resulting url
yields exactly one pair for that key, and it carries the value written
last. -/
theorem set_query_param_last_write_wins (u k v1 v2 : Str) :
    (parseQsl ((urlsplitM (setQueryParam (setQueryParam u k v1) k v2)).query)).filter
      (fun kv => kv.1 = k) = [(k, v2)] := by
  unfold setQueryParam
  dsimp only
  rw [urlsplit_unsplit_query _ _ (urlInv_split _) (urlencode_clean _)
    (urlencodePairs_ne_nil _ (dictInsert_ne_nil _ _ _))]
  rw [parseQsl_urlencode]
  exact filter_dictInsert _ _ _ (dictOfPairs_nodup _)
